import Mathlib

/-!
# Verification of the tau-bench evaluation oracle

A shallow embedding of the correctness-critical core of the `tau-bench`
repository: the canonical state-hashing machinery and dual-channel reward
validator (`tau_bench/validation.py`), the component resolver of the generic
domain environment (`tau_bench/envs/generic.py`), the semantic validator's
tool-map construction (`tau_bench/task_validation.py`), and domain discovery
(`tau_bench/domain_config.py`).

Python strings are modelled as `List Char` so that the validator's substring,
lower-casing and comma-stripping operations are directly analysable.
-/

namespace TauBench

/-- Python strings, modelled as lists of characters. -/
abbrev PyStr := List Char

/-- Python `str.lower()`.  Lean's `Char.toLower` lowers ASCII letters, which covers
the repository's data; Python's full-Unicode lowering coincides on ASCII. -/
def lowerStr (s : PyStr) : PyStr := s.map Char.toLower

/-- Python `str.replace(",", "")`: removing every comma from a string.  For a
single-character pattern and empty replacement, Python's left-to-right
non-overlapping replacement is exactly a filter. -/
def removeCommas (s : PyStr) : PyStr := s.filter (fun c => c ≠ ',')

/-- Python's substring test `needle in hay`. -/
def strIn (needle hay : PyStr) : Bool :=
  needle.isPrefixOf hay ||
    match hay with
    | [] => false
    | _ :: t => strIn needle t

/-! ## SHA-256

`consistent_hash` in `tau_bench/validation.py` is
`sha256(str(value).encode("utf-8")).hexdigest()`.  `hashlib.sha256` is a
Python standard-library primitive (an external collaborator of the
repository); it is modelled here by a complete SHA-256 implementation over
`Nat` with words reduced mod `2 ^ 32`.  The round constants and initial hash
state are derived from the fractional parts of the cube/square roots of the
first primes, exactly as in FIPS 180-4, rather than transcribed. -/


/-- Truncate to a 32-bit word. -/
def w32 (n : Nat) : Nat := n % 4294967296

/-- Right-rotation of a 32-bit word. -/
def rotr32 (n x : Nat) : Nat := x / 2 ^ n + x % 2 ^ n * 2 ^ (32 - n)

/-- Logical right shift. -/
def shr32 (n x : Nat) : Nat := x / 2 ^ n

/-- Bitwise complement of a 32-bit word. -/
def not32 (x : Nat) : Nat := 4294967295 - x

def shaCh (x y z : Nat) : Nat := (x &&& y) ^^^ (not32 x &&& z)

def shaMaj (x y z : Nat) : Nat := (x &&& y) ^^^ (x &&& z) ^^^ (y &&& z)

def bigSigma0 (x : Nat) : Nat := rotr32 2 x ^^^ rotr32 13 x ^^^ rotr32 22 x

def bigSigma1 (x : Nat) : Nat := rotr32 6 x ^^^ rotr32 11 x ^^^ rotr32 25 x

def smallSigma0 (x : Nat) : Nat := rotr32 7 x ^^^ rotr32 18 x ^^^ shr32 3 x

def smallSigma1 (x : Nat) : Nat := rotr32 17 x ^^^ rotr32 19 x ^^^ shr32 10 x

/-- The 64 SHA-256 round constants of FIPS 180-4: the first 32 bits of the
fractional parts of the cube roots of the first 64 primes (cross-checked
against the standard test vectors `sha256("")` and `sha256("abc")`). -/
def sha256K : List Nat :=
  [1116352408, 1899447441, 3049323471, 3921009573, 961987163, 1508970993,
   2453635748, 2870763221, 3624381080, 310598401, 607225278, 1426881987,
   1925078388, 2162078206, 2614888103, 3248222580, 3835390401, 4022224774,
   264347078, 604807628, 770255983, 1249150122, 1555081692, 1996064986,
   2554220882, 2821834349, 2952996808, 3210313671, 3336571891, 3584528711,
   113926993, 338241895, 666307205, 773529912, 1294757372, 1396182291,
   1695183700, 1986661051, 2177026350, 2456956037, 2730485921, 2820302411,
   3259730800, 3345764771, 3516065817, 3600352804, 4094571909, 275423344,
   430227734, 506948616, 659060556, 883997877, 958139571, 1322822218,
   1537002063, 1747873779, 1955562222, 2024104815, 2227730452, 2361852424,
   2428436474, 2756734187, 3204031479, 3329325298]

/-- SHA-256 working state: eight 32-bit words. -/
structure Sha8 where
  a : Nat
  b : Nat
  c : Nat
  d : Nat
  e : Nat
  f : Nat
  g : Nat
  h : Nat

/-- Initial hash state of FIPS 180-4: the first 32 bits of the fractional
parts of the square roots of the first 8 primes. -/
def sha256Init : Sha8 :=
  ⟨1779033703, 3144134277, 1013904242, 2773480762, 1359893119, 2600822924,
   528734635, 1541459225⟩

/-- Big-endian 32-bit words from a byte stream. -/
def bytesToWords : List Nat → List Nat
  | b0 :: b1 :: b2 :: b3 :: rest =>
    (((b0 * 256 + b1) * 256 + b2) * 256 + b3) :: bytesToWords rest
  | _ => []

/-- One step of the message-schedule extension. -/
def nextScheduleWord (ws : List Nat) : Nat :=
  let r := ws.reverse
  w32 (smallSigma1 (r.getD 1 0) + r.getD 6 0 + smallSigma0 (r.getD 14 0) + r.getD 15 0)

/-- Extend the 16-word schedule by `k` further words. -/
def extendSchedule (ws : List Nat) : Nat → List Nat
  | 0 => ws
  | k + 1 => extendSchedule (ws ++ [nextScheduleWord ws]) k

/-- One SHA-256 round; `wk` is the pair (schedule word, round constant). -/
def sha256Round (st : Sha8) (wk : Nat × Nat) : Sha8 :=
  let t1 := w32 (st.h + bigSigma1 st.e + shaCh st.e st.f st.g + wk.2 + wk.1)
  let t2 := w32 (bigSigma0 st.a + shaMaj st.a st.b st.c)
  ⟨w32 (t1 + t2), st.a, st.b, st.c, w32 (st.d + t1), st.e, st.f, st.g⟩

/-- Compress one 64-byte chunk into the running state. -/
def sha256Compress (st : Sha8) (chunk : List Nat) : Sha8 :=
  let w := extendSchedule (bytesToWords chunk) 48
  let fin := (w.zip sha256K).foldl sha256Round st
  ⟨w32 (st.a + fin.a), w32 (st.b + fin.b), w32 (st.c + fin.c), w32 (st.d + fin.d),
   w32 (st.e + fin.e), w32 (st.f + fin.f), w32 (st.g + fin.g), w32 (st.h + fin.h)⟩

/-- Big-endian 8-byte encoding of the bit length. -/
def lenBytes8 (n : Nat) : List Nat :=
  [n / 2 ^ 56 % 256, n / 2 ^ 48 % 256, n / 2 ^ 40 % 256, n / 2 ^ 32 % 256,
   n / 2 ^ 24 % 256, n / 2 ^ 16 % 256, n / 2 ^ 8 % 256, n % 256]

/-- Standard SHA-256 padding of a byte message. -/
def sha256Pad (msg : List Nat) : List Nat :=
  msg ++ 128 :: List.replicate ((64 - (msg.length + 9) % 64) % 64) 0 ++
    lenBytes8 (8 * msg.length)

/-- Split a byte stream into 64-byte chunks; the fuel argument (any bound on
the number of chunks) keeps the recursion structural. -/
def chunks64 : Nat → List Nat → List (List Nat)
  | _, [] => []
  | 0, _ :: _ => []
  | fuel + 1, l => l.take 64 :: chunks64 fuel (l.drop 64)

/-- SHA-256 state after absorbing a whole message. -/
def sha256Words (msg : List Nat) : Sha8 :=
  let padded := sha256Pad msg
  (chunks64 padded.length padded).foldl sha256Compress sha256Init

/-- A lowercase hexadecimal digit. -/
def hexDig (n : Nat) : Char :=
  if n < 10 then Char.ofNat ('0'.toNat + n) else Char.ofNat ('a'.toNat + n - 10)

/-- Eight lowercase hex digits of a 32-bit word. -/
def hex8 (w : Nat) : PyStr :=
  [hexDig (w / 2 ^ 28 % 16), hexDig (w / 2 ^ 24 % 16), hexDig (w / 2 ^ 20 % 16),
   hexDig (w / 2 ^ 16 % 16), hexDig (w / 2 ^ 12 % 16), hexDig (w / 2 ^ 8 % 16),
   hexDig (w / 2 ^ 4 % 16), hexDig (w % 16)]

/-- Model of `hashlib.sha256(bytes).hexdigest()`. -/
def sha256Hex (msg : List Nat) : PyStr :=
  let s := sha256Words msg
  hex8 s.a ++ hex8 s.b ++ hex8 s.c ++ hex8 s.d ++ hex8 s.e ++ hex8 s.f ++
    hex8 s.g ++ hex8 s.h

/-- UTF-8 bytes of one character (`str.encode("utf-8")`). -/
def utf8Char (c : Char) : List Nat :=
  let n := c.toNat
  if n < 128 then [n]
  else if n < 2048 then [192 + n / 64, 128 + n % 64]
  else if n < 65536 then [224 + n / 4096, 128 + n / 64 % 64, 128 + n % 64]
  else [240 + n / 262144, 128 + n / 4096 % 64, 128 + n / 64 % 64, 128 + n % 64]

/-- Python `str.encode("utf-8")` over a whole string. -/
def utf8Encode (s : PyStr) : List Nat := s.foldr (fun c acc => utf8Char c ++ acc) []

/-! ## Python values

`to_hashable` in `tau_bench/validation.py` accepts
`ToHashable = Union[str, int, float, Dict[str, ToHashable], List[...], Set[...]]`
and in its final `else` branch passes any other object through unchanged.
`PyVal` models the values a snapshot can hold: strings, integers, booleans,
string-keyed mappings, lists, sets, and opaque non-serializable objects
(`obj`), whose `id` field stands for the object's identity (in CPython, its
memory address, which is what `str()` of such an object exposes).  Floats are
not modelled; like any non-container they would pass through the `else`
branch unchanged. -/

inductive PyVal : Type where
  | str (s : PyStr)
  | int (n : Int)
  | bool (b : Bool)
  | dict (entries : List (PyStr × PyVal))
  | list (elems : List PyVal)
  | set (elems : List PyVal)
  | obj (id : Nat)

/-- The `Hashable` result type of `to_hashable`: scalars pass through, and
dicts/lists/sets all become tuples. -/
inductive HVal : Type where
  | str (s : PyStr)
  | int (n : Int)
  | bool (b : Bool)
  | tup (elems : List HVal)
  | obj (id : Nat)

/-! ## Comparison of hashable values

Python's `sorted` compares same-type values: numbers numerically (`bool` is a
subtype of `int`, so `True` compares as `1`), strings by code point, tuples
lexicographically.  Comparing values of genuinely different types raises
`TypeError`; the comparator below totalises those cases by type rank so the
embedding stays executable (no claim exercises mixed-type sets).  `HKey`
normalises `bool` into `int` so that comparator-equality coincides with
syntactic equality, which keeps the comparator laws provable by structural
induction. -/

inductive HKey : Type where
  | int (n : Int)
  | str (s : PyStr)
  | tup (elems : List HKey)
  | obj (id : Nat)

def ncmp (m n : Nat) : Ordering :=
  if m < n then .lt else if n < m then .gt else .eq

def icmp (m n : Int) : Ordering :=
  if m < n then .lt else if n < m then .gt else .eq

def ccmp (a b : Char) : Ordering := ncmp a.toNat b.toNat

/-- Lexicographic comparison of lists by an element comparator. -/
def lexCmp (c : α → α → Ordering) : List α → List α → Ordering
  | [], [] => .eq
  | [], _ :: _ => .lt
  | _ :: _, [] => .gt
  | a :: as, b :: bs =>
    match c a b with
    | .eq => lexCmp c as bs
    | o => o

/-- Python string comparison (by code point). -/
def scmp : PyStr → PyStr → Ordering := lexCmp ccmp

mutual

/-- Comparison of normalised hashable values.  Same-type cases follow Python
(`int` numerically, `str` by code point, `tuple` lexicographically); the
cross-type cases, on which Python's `sorted` would raise `TypeError`, are
totalised by the fixed type order int < str < tup < obj. -/
def kcmp : HKey → HKey → Ordering
  | .int m, .int n => icmp m n
  | .int _, .str _ => .lt
  | .int _, .tup _ => .lt
  | .int _, .obj _ => .lt
  | .str _, .int _ => .gt
  | .str a, .str b => scmp a b
  | .str _, .tup _ => .lt
  | .str _, .obj _ => .lt
  | .tup _, .int _ => .gt
  | .tup _, .str _ => .gt
  | .tup a, .tup b => kcmpList a b
  | .tup _, .obj _ => .lt
  | .obj _, .int _ => .gt
  | .obj _, .str _ => .gt
  | .obj _, .tup _ => .gt
  | .obj i, .obj j => ncmp i j

def kcmpList : List HKey → List HKey → Ordering
  | [], [] => .eq
  | [], _ :: _ => .lt
  | _ :: _, [] => .gt
  | a :: as, b :: bs =>
    match kcmp a b with
    | .eq => kcmpList as bs
    | o => o

end

mutual

/-- Fold Python's `bool ⊂ int` identification into the comparison key. -/
def hkey : HVal → HKey
  | .str s => .str s
  | .int n => .int n
  | .bool b => .int (if b then 1 else 0)
  | .tup es => .tup (hkeyList es)
  | .obj i => .obj i

def hkeyList : List HVal → List HKey
  | [] => []
  | v :: rest => hkey v :: hkeyList rest

end

/-- The comparison Python applies while sorting hashable values. -/
def hcmp (x y : HVal) : Ordering := kcmp (hkey x) (hkey y)

/-! ### Comparator laws -/

theorem ncmp_eq_iff {m n : Nat} : ncmp m n = .eq ↔ m = n := by
  unfold ncmp
  split_ifs <;> simp <;> omega

theorem ncmp_swap (m n : Nat) : ncmp n m = (ncmp m n).swap := by
  unfold ncmp
  split_ifs <;> simp [Ordering.swap] <;> omega

theorem ncmp_lt_trans {a b c : Nat} (h1 : ncmp a b = .lt) (h2 : ncmp b c = .lt) :
    ncmp a c = .lt := by
  unfold ncmp at *
  split_ifs at * <;> simp_all <;> omega

theorem icmp_eq_iff {m n : Int} : icmp m n = .eq ↔ m = n := by
  unfold icmp
  split_ifs <;> simp <;> omega

theorem icmp_swap (m n : Int) : icmp n m = (icmp m n).swap := by
  unfold icmp
  split_ifs <;> simp [Ordering.swap] <;> omega

theorem icmp_lt_trans {a b c : Int} (h1 : icmp a b = .lt) (h2 : icmp b c = .lt) :
    icmp a c = .lt := by
  unfold icmp at *
  split_ifs at * <;> simp_all <;> omega

theorem ccmp_eq_iff {a b : Char} : ccmp a b = .eq ↔ a = b := by
  unfold ccmp
  rw [ncmp_eq_iff]
  constructor
  · intro h
    unfold Char.toNat at h
    exact Char.eq_of_val_eq (UInt32.toNat.inj h)
  · intro h
    rw [h]

theorem ccmp_swap (a b : Char) : ccmp b a = (ccmp a b).swap := ncmp_swap _ _

theorem ccmp_lt_trans {a b c : Char} (h1 : ccmp a b = .lt) (h2 : ccmp b c = .lt) :
    ccmp a c = .lt := ncmp_lt_trans h1 h2

section LexCmpLaws

variable {α : Type _} {c : α → α → Ordering}

theorem lexCmp_eq_iff (hc : ∀ a b, c a b = .eq ↔ a = b) :
    ∀ as bs : List α, lexCmp c as bs = .eq ↔ as = bs
  | [], [] => by simp [lexCmp]
  | [], _ :: _ => by simp [lexCmp]
  | _ :: _, [] => by simp [lexCmp]
  | a :: as, b :: bs => by
    rw [lexCmp]
    cases h : c a b with
    | eq =>
      have hab := (hc a b).mp h
      subst hab
      simp [lexCmp_eq_iff hc as bs]
    | lt =>
      simp only [List.cons.injEq]
      constructor
      · intro h2
        cases h2
      · rintro ⟨hab, -⟩
        rw [hab, (hc b b).mpr rfl] at h
        cases h
    | gt =>
      simp only [List.cons.injEq]
      constructor
      · intro h2
        cases h2
      · rintro ⟨hab, -⟩
        rw [hab, (hc b b).mpr rfl] at h
        cases h

theorem lexCmp_swap (hsw : ∀ a b, c b a = (c a b).swap) :
    ∀ as bs : List α, lexCmp c bs as = (lexCmp c as bs).swap
  | [], [] => rfl
  | [], _ :: _ => rfl
  | _ :: _, [] => rfl
  | a :: as, b :: bs => by
    rw [lexCmp, lexCmp, hsw a b]
    cases h : c a b <;> simp [Ordering.swap, lexCmp_swap hsw as bs]

theorem lexCmp_lt_trans (hc : ∀ a b, c a b = .eq ↔ a = b)
    (ht : ∀ {a b d : α}, c a b = .lt → c b d = .lt → c a d = .lt) :
    ∀ {as bs cs : List α}, lexCmp c as bs = .lt → lexCmp c bs cs = .lt →
      lexCmp c as cs = .lt
  | [], [], _ :: _, _, _ => by simp [lexCmp]
  | [], _ :: _, _ :: _, _, _ => by simp [lexCmp]
  | a :: as, b :: bs, d :: ds, h1, h2 => by
    rw [lexCmp] at h1 h2 ⊢
    cases hab : c a b with
    | gt => rw [hab] at h1; cases h1
    | eq =>
      have := (hc a b).mp hab
      subst this
      rw [hab] at h1
      cases had : c a d with
      | lt => rfl
      | eq => rw [had] at h2; exact lexCmp_lt_trans hc ht h1 h2
      | gt => rw [had] at h2; cases h2
    | lt =>
      cases hbd : c b d with
      | gt => rw [hbd] at h2; cases h2
      | eq =>
        have := (hc b d).mp hbd
        subst this
        rw [hab]
      | lt => rw [ht hab hbd]

end LexCmpLaws

theorem scmp_eq_iff {a b : PyStr} : scmp a b = .eq ↔ a = b :=
  lexCmp_eq_iff (fun _ _ => ccmp_eq_iff) a b

theorem scmp_swap (a b : PyStr) : scmp b a = (scmp a b).swap :=
  lexCmp_swap ccmp_swap a b

theorem scmp_lt_trans {a b c : PyStr} (h1 : scmp a b = .lt) (h2 : scmp b c = .lt) :
    scmp a c = .lt :=
  lexCmp_lt_trans (fun _ _ => ccmp_eq_iff) (fun hx hy => ccmp_lt_trans hx hy) h1 h2

mutual

theorem kcmp_eq_iff : ∀ x y : HKey, (kcmp x y = .eq ↔ x = y)
  | .int m, .int n => by simp only [kcmp, HKey.int.injEq]; exact icmp_eq_iff
  | .int _, .str _ => by simp [kcmp]
  | .int _, .tup _ => by simp [kcmp]
  | .int _, .obj _ => by simp [kcmp]
  | .str _, .int _ => by simp [kcmp]
  | .str a, .str b => by simp only [kcmp, HKey.str.injEq]; exact scmp_eq_iff
  | .str _, .tup _ => by simp [kcmp]
  | .str _, .obj _ => by simp [kcmp]
  | .tup _, .int _ => by simp [kcmp]
  | .tup _, .str _ => by simp [kcmp]
  | .tup a, .tup b => by simp only [kcmp, HKey.tup.injEq]; exact kcmpList_eq_iff a b
  | .tup _, .obj _ => by simp [kcmp]
  | .obj _, .int _ => by simp [kcmp]
  | .obj _, .str _ => by simp [kcmp]
  | .obj _, .tup _ => by simp [kcmp]
  | .obj i, .obj j => by simp only [kcmp, HKey.obj.injEq]; exact ncmp_eq_iff

theorem kcmpList_eq_iff : ∀ as bs : List HKey, (kcmpList as bs = .eq ↔ as = bs)
  | [], [] => by simp [kcmpList]
  | [], _ :: _ => by simp [kcmpList]
  | _ :: _, [] => by simp [kcmpList]
  | a :: as, b :: bs => by
    rw [kcmpList]
    cases h : kcmp a b with
    | eq =>
      have hab := (kcmp_eq_iff a b).mp h
      subst hab
      simp only [List.cons.injEq, true_and]
      exact kcmpList_eq_iff as bs
    | lt =>
      simp only [List.cons.injEq]
      constructor
      · intro h2
        cases h2
      · rintro ⟨hab, -⟩
        rw [hab, (kcmp_eq_iff b b).mpr rfl] at h
        cases h
    | gt =>
      simp only [List.cons.injEq]
      constructor
      · intro h2
        cases h2
      · rintro ⟨hab, -⟩
        rw [hab, (kcmp_eq_iff b b).mpr rfl] at h
        cases h

end

mutual

theorem kcmp_swap : ∀ x y : HKey, kcmp y x = (kcmp x y).swap
  | .int m, .int n => by simp only [kcmp]; exact icmp_swap m n
  | .int _, .str _ => rfl
  | .int _, .tup _ => rfl
  | .int _, .obj _ => rfl
  | .str _, .int _ => rfl
  | .str a, .str b => by simp only [kcmp]; exact scmp_swap a b
  | .str _, .tup _ => rfl
  | .str _, .obj _ => rfl
  | .tup _, .int _ => rfl
  | .tup _, .str _ => rfl
  | .tup a, .tup b => by simp only [kcmp]; exact kcmpList_swap a b
  | .tup _, .obj _ => rfl
  | .obj _, .int _ => rfl
  | .obj _, .str _ => rfl
  | .obj _, .tup _ => rfl
  | .obj i, .obj j => by simp only [kcmp]; exact ncmp_swap i j

theorem kcmpList_swap : ∀ as bs : List HKey, kcmpList bs as = (kcmpList as bs).swap
  | [], [] => rfl
  | [], _ :: _ => rfl
  | _ :: _, [] => rfl
  | a :: as, b :: bs => by
    rw [kcmpList, kcmpList, kcmp_swap a b]
    cases h : kcmp a b <;> simp [Ordering.swap, kcmpList_swap as bs]

end

mutual

theorem kcmp_lt_trans : ∀ x y z : HKey, kcmp x y = .lt → kcmp y z = .lt → kcmp x z = .lt
  | .int a, .int b, .int c, h1, h2 => by
    simp only [kcmp] at h1 h2 ⊢; exact icmp_lt_trans h1 h2
  | .int _, .int _, .str _, h1, h2 => by simp_all [kcmp]
  | .int _, .int _, .tup _, h1, h2 => by simp_all [kcmp]
  | .int _, .int _, .obj _, h1, h2 => by simp_all [kcmp]
  | .int _, .str _, .int _, h1, h2 => by simp_all [kcmp]
  | .int _, .str _, .str _, h1, h2 => by simp_all [kcmp]
  | .int _, .str _, .tup _, h1, h2 => by simp_all [kcmp]
  | .int _, .str _, .obj _, h1, h2 => by simp_all [kcmp]
  | .int _, .tup _, .int _, h1, h2 => by simp_all [kcmp]
  | .int _, .tup _, .str _, h1, h2 => by simp_all [kcmp]
  | .int _, .tup _, .tup _, h1, h2 => by simp_all [kcmp]
  | .int _, .tup _, .obj _, h1, h2 => by simp_all [kcmp]
  | .int _, .obj _, .int _, h1, h2 => by simp_all [kcmp]
  | .int _, .obj _, .str _, h1, h2 => by simp_all [kcmp]
  | .int _, .obj _, .tup _, h1, h2 => by simp_all [kcmp]
  | .int _, .obj _, .obj _, h1, h2 => by simp_all [kcmp]
  | .str _, .int _, .int _, h1, h2 => by simp_all [kcmp]
  | .str _, .int _, .str _, h1, h2 => by simp_all [kcmp]
  | .str _, .int _, .tup _, h1, h2 => by simp_all [kcmp]
  | .str _, .int _, .obj _, h1, h2 => by simp_all [kcmp]
  | .str _, .str _, .int _, h1, h2 => by simp_all [kcmp]
  | .str a, .str b, .str c, h1, h2 => by
    simp only [kcmp] at h1 h2 ⊢; exact scmp_lt_trans h1 h2
  | .str _, .str _, .tup _, h1, h2 => by simp_all [kcmp]
  | .str _, .str _, .obj _, h1, h2 => by simp_all [kcmp]
  | .str _, .tup _, .int _, h1, h2 => by simp_all [kcmp]
  | .str _, .tup _, .str _, h1, h2 => by simp_all [kcmp]
  | .str _, .tup _, .tup _, h1, h2 => by simp_all [kcmp]
  | .str _, .tup _, .obj _, h1, h2 => by simp_all [kcmp]
  | .str _, .obj _, .int _, h1, h2 => by simp_all [kcmp]
  | .str _, .obj _, .str _, h1, h2 => by simp_all [kcmp]
  | .str _, .obj _, .tup _, h1, h2 => by simp_all [kcmp]
  | .str _, .obj _, .obj _, h1, h2 => by simp_all [kcmp]
  | .tup _, .int _, .int _, h1, h2 => by simp_all [kcmp]
  | .tup _, .int _, .str _, h1, h2 => by simp_all [kcmp]
  | .tup _, .int _, .tup _, h1, h2 => by simp_all [kcmp]
  | .tup _, .int _, .obj _, h1, h2 => by simp_all [kcmp]
  | .tup _, .str _, .int _, h1, h2 => by simp_all [kcmp]
  | .tup _, .str _, .str _, h1, h2 => by simp_all [kcmp]
  | .tup _, .str _, .tup _, h1, h2 => by simp_all [kcmp]
  | .tup _, .str _, .obj _, h1, h2 => by simp_all [kcmp]
  | .tup _, .tup _, .int _, h1, h2 => by simp_all [kcmp]
  | .tup _, .tup _, .str _, h1, h2 => by simp_all [kcmp]
  | .tup a, .tup b, .tup c, h1, h2 => by
    simp only [kcmp] at h1 h2 ⊢; exact kcmpList_lt_trans a b c h1 h2
  | .tup _, .tup _, .obj _, h1, h2 => by simp_all [kcmp]
  | .tup _, .obj _, .int _, h1, h2 => by simp_all [kcmp]
  | .tup _, .obj _, .str _, h1, h2 => by simp_all [kcmp]
  | .tup _, .obj _, .tup _, h1, h2 => by simp_all [kcmp]
  | .tup _, .obj _, .obj _, h1, h2 => by simp_all [kcmp]
  | .obj _, .int _, .int _, h1, h2 => by simp_all [kcmp]
  | .obj _, .int _, .str _, h1, h2 => by simp_all [kcmp]
  | .obj _, .int _, .tup _, h1, h2 => by simp_all [kcmp]
  | .obj _, .int _, .obj _, h1, h2 => by simp_all [kcmp]
  | .obj _, .str _, .int _, h1, h2 => by simp_all [kcmp]
  | .obj _, .str _, .str _, h1, h2 => by simp_all [kcmp]
  | .obj _, .str _, .tup _, h1, h2 => by simp_all [kcmp]
  | .obj _, .str _, .obj _, h1, h2 => by simp_all [kcmp]
  | .obj _, .tup _, .int _, h1, h2 => by simp_all [kcmp]
  | .obj _, .tup _, .str _, h1, h2 => by simp_all [kcmp]
  | .obj _, .tup _, .tup _, h1, h2 => by simp_all [kcmp]
  | .obj _, .tup _, .obj _, h1, h2 => by simp_all [kcmp]
  | .obj _, .obj _, .int _, h1, h2 => by simp_all [kcmp]
  | .obj _, .obj _, .str _, h1, h2 => by simp_all [kcmp]
  | .obj _, .obj _, .tup _, h1, h2 => by simp_all [kcmp]
  | .obj a, .obj b, .obj c, h1, h2 => by
    simp only [kcmp] at h1 h2 ⊢; exact ncmp_lt_trans h1 h2

theorem kcmpList_lt_trans : ∀ as bs cs : List HKey,
    kcmpList as bs = .lt → kcmpList bs cs = .lt → kcmpList as cs = .lt
  | [], [], _, h1, _ => by simp [kcmpList] at h1
  | [], _ :: _, [], _, h2 => by simp [kcmpList] at h2
  | [], _ :: _, _ :: _, _, _ => by simp [kcmpList]
  | _ :: _, [], _, h1, _ => by simp [kcmpList] at h1
  | _ :: _, _ :: _, [], _, h2 => by simp [kcmpList] at h2
  | a :: as, b :: bs, c :: cs, h1, h2 => by
    rw [kcmpList] at h1 h2 ⊢
    cases hab : kcmp a b with
    | gt => rw [hab] at h1; cases h1
    | eq =>
      have heq := (kcmp_eq_iff a b).mp hab
      subst heq
      rw [hab] at h1
      cases hac : kcmp a c with
      | lt => rfl
      | eq =>
        rw [hac] at h2
        exact kcmpList_lt_trans as bs cs h1 h2
      | gt => rw [hac] at h2; cases h2
    | lt =>
      cases hbc : kcmp b c with
      | gt => rw [hbc] at h2; cases h2
      | eq =>
        have heq := (kcmp_eq_iff b c).mp hbc
        subst heq
        rw [hab]
      | lt => rw [kcmp_lt_trans a b c hab hbc]

end

theorem kcmp_le_trans {x y z : HKey} (h1 : kcmp x y ≠ .gt) (h2 : kcmp y z ≠ .gt) :
    kcmp x z ≠ .gt := by
  rcases hxy : kcmp x y with - | - | -
  · rcases hyz : kcmp y z with - | - | -
    · rw [kcmp_lt_trans x y z hxy hyz]
      intro hc
      cases hc
    · have := (kcmp_eq_iff y z).mp hyz
      subst this
      rw [hxy]
      intro hc
      cases hc
    · exact absurd hyz h2
  · have := (kcmp_eq_iff x y).mp hxy
    subst this
    exact h2
  · exact absurd hxy h1

theorem scmp_le_trans {x y z : PyStr} (h1 : scmp x y ≠ .gt) (h2 : scmp y z ≠ .gt) :
    scmp x z ≠ .gt := by
  rcases hxy : scmp x y with - | - | -
  · rcases hyz : scmp y z with - | - | -
    · rw [scmp_lt_trans hxy hyz]
      intro hc
      cases hc
    · have := scmp_eq_iff.mp hyz
      subst this
      rw [hxy]
      intro hc
      cases hc
    · exact absurd hyz h2
  · have := scmp_eq_iff.mp hxy
    subst this
    exact h2
  · exact absurd hxy h1

/-! ## The sorting relations used by `to_hashable`

`sorted(item.items())` compares `(key, value)` tuples; the keys of a real
Python dict are distinct, so only the string keys are ever compared.
`sorted(...)` over a set's elements compares the hashable values themselves.
Both are modelled as `List.insertionSort`, which, like Python's sort, is
stable — on a total preorder stable sorts agree, so the two produce identical
output on every input. -/


/-- Ordering of dict entries: by key (Python compares the key first and dict
keys are distinct, so the value is never reached). -/
def entryLe (p q : PyStr × HVal) : Prop := scmp p.1 q.1 ≠ .gt

instance : DecidableRel entryLe := fun p q => by
  unfold entryLe
  infer_instance

instance : IsTotal (PyStr × HVal) entryLe where
  total p q := by
    unfold entryLe
    rcases h : scmp p.1 q.1 with - | - | -
    · left
      intro hc
      cases hc
    · left
      intro hc
      cases hc
    · right
      rw [scmp_swap, h]
      intro hc
      cases hc

instance : IsTrans (PyStr × HVal) entryLe where
  trans _ _ _ := scmp_le_trans

/-- Ordering of hashable values: Python's comparison, totalised. -/
def hvalLe (x y : HVal) : Prop := hcmp x y ≠ .gt

instance : DecidableRel hvalLe := fun x y => by
  unfold hvalLe
  infer_instance

instance : IsTotal HVal hvalLe where
  total x y := by
    unfold hvalLe hcmp
    rcases h : kcmp (hkey x) (hkey y) with - | - | -
    · left
      intro hc
      cases hc
    · left
      intro hc
      cases hc
    · right
      rw [kcmp_swap, h]
      intro hc
      cases hc

instance : IsTrans HVal hvalLe where
  trans _ _ _ := kcmp_le_trans

/-! ## `to_hashable`

  ```python
  def to_hashable(item):
      if isinstance(item, dict):
          return tuple((key, to_hashable(value)) for key, value in sorted(item.items()))
      elif isinstance(item, list):
          return tuple(to_hashable(element) for element in item)
      elif isinstance(item, set):
          return tuple(sorted(to_hashable(element) for element in item))
      else:
          return item
  ```

For the dict case, Python sorts the raw `(key, value)` items and then
converts the values; since the comparator only reaches the (distinct) keys,
converting values first and then sorting by key — which keeps the recursion
structural — yields the same result. -/


/-- A converted dict item as the 2-tuple Python builds. -/
def entryTup (p : PyStr × HVal) : HVal := .tup [.str p.1, p.2]

mutual

def to_hashable : PyVal → HVal
  | .str s => .str s
  | .int n => .int n
  | .bool b => .bool b
  | .dict entries => .tup ((List.insertionSort entryLe (hashEntries entries)).map entryTup)
  | .list elems => .tup (hashList elems)
  | .set elems => .tup (List.insertionSort hvalLe (hashList elems))
  | .obj i => .obj i

def hashEntries : List (PyStr × PyVal) → List (PyStr × HVal)
  | [] => []
  | (k, v) :: rest => (k, to_hashable v) :: hashEntries rest

def hashList : List PyVal → List HVal
  | [] => []
  | v :: rest => to_hashable v :: hashList rest

end

/-! ## `consistent_hash`

  ```python
  def consistent_hash(value):
      return sha256(str(value).encode("utf-8")).hexdigest()
  ```

`str(value)` on a tuple renders `repr` of each element; on a scalar it is the
scalar's own string form.  The `repr` of a string chooses single quotes
(double quotes when the string contains `'` but no `"`) and escapes
backslash, the quote character, newline, carriage return, tab, and other
control characters as `\xhh`; printable characters pass through.  For an
opaque object, CPython renders `<object object at 0x...>` with the object's
address — the address is the `id` parameter of `PyVal.obj`, rendered in
decimal here since only its injectivity, not its format, matters. -/


/-- The quote character Python `repr` picks for a string. -/
def reprQuote (s : PyStr) : Char :=
  if '\'' ∈ s ∧ ¬ '"' ∈ s then '"' else '\''

/-- Escape one character inside a `repr`-quoted string. -/
def reprEsc (q c : Char) : PyStr :=
  if c = '\\' then ['\\', '\\']
  else if c = q then ['\\', q]
  else if c = '\n' then ['\\', 'n']
  else if c = '\r' then ['\\', 'r']
  else if c = '\t' then ['\\', 't']
  else if c.toNat < 32 ∨ c.toNat = 127 then
    ['\\', 'x', hexDig (c.toNat / 16 % 16), hexDig (c.toNat % 16)]
  else [c]

/-- Python `repr` of a string. -/
def pyReprStr (s : PyStr) : PyStr :=
  let q := reprQuote s
  q :: s.foldr (fun c acc => reprEsc q c ++ acc) [q]

mutual

/-- Python `repr` of a hashable value. -/
def pyRepr : HVal → PyStr
  | .str s => pyReprStr s
  | .int n => (toString n).data
  | .bool b => if b then "True".data else "False".data
  | .tup [] => "()".data
  | .tup [x] => '(' :: pyRepr x ++ [',', ')']
  | .tup (x :: y :: rest) => '(' :: pyRepr x ++ pyReprSep (y :: rest) ++ [')']
  | .obj i => "<object object at ".data ++ (toString i).data ++ ['>']

/-- The `", "`-separated `repr`s of the remaining tuple elements. -/
def pyReprSep : List HVal → PyStr
  | [] => []
  | x :: rest => ',' :: ' ' :: (pyRepr x ++ pyReprSep rest)

end

/-- Python `str` of a hashable value: a string renders as itself, everything
else by `repr`. -/
def pyStrOf : HVal → PyStr
  | .str s => s
  | v => pyRepr v

/-- The hash `consistent_hash(value)`. -/
def consistent_hash (value : HVal) : PyStr :=
  sha256Hex (utf8Encode (pyStrOf value))

/-! ## Order-independence of canonicalization

`SEquiv a b` says the snapshots `a` and `b` are structurally equal and differ
only in the order of dict entries or set elements, anywhere in the nesting.
The permutation constructors carry the well-formedness facts that hold of
every real Python value: a dict's keys are distinct, and a set's elements are
pairwise distinct under Python `==` (which `hcmp · · = .eq` models, including
`1 == True`). -/


/-- Elements of a Python set are pairwise unequal under Python `==`. -/
def SetOk (es : List PyVal) : Prop :=
  (es.map to_hashable).Pairwise fun x y => hcmp x y ≠ .eq

/-- Structural equality up to dict-key order and set-element order, nested. -/
inductive SEquiv : PyVal → PyVal → Prop where
  | refl (v) : SEquiv v v
  | trans {a b c} : SEquiv a b → SEquiv b c → SEquiv a c
  | listCons {x y xs ys} : SEquiv x y → SEquiv (.list xs) (.list ys) →
      SEquiv (.list (x :: xs)) (.list (y :: ys))
  | dictCons {k v w es fs} : SEquiv v w → SEquiv (.dict es) (.dict fs) →
      SEquiv (.dict ((k, v) :: es)) (.dict ((k, w) :: fs))
  | setCons {x y xs ys} : SEquiv x y → SEquiv (.set xs) (.set ys) →
      SEquiv (.set (x :: xs)) (.set (y :: ys))
  | dictPerm {es fs} : es.Perm fs → (es.map Prod.fst).Nodup →
      SEquiv (.dict es) (.dict fs)
  | setPerm {es fs} : es.Perm fs → SetOk es → SEquiv (.set es) (.set fs)

/-! ## The reward validator (`tau_bench/validation.py`, class `TaskValidator`)

Python objects mutated in place are modelled by explicit state passing: a
tool's `invoke(data=data, **kwargs)` returns the pair (exception raised?,
data after the call) — the second component reflects any mutations performed
before an exception was raised, since those survive in the real snapshot.
An operation that can raise an uncaught exception returns `Option`. -/


/-- Constant `RESPOND_ACTION_NAME` from `tau_bench/types.py` (the agent's `respond`
action, e.g. `Action(name="respond", kwargs={"content": ...})` in
`example_validation.py`). -/
def RESPOND_ACTION_NAME : PyStr := "respond".data

/-- The `"content"` key of a respond action's kwargs. -/
def contentKey : PyStr := "content".data

/-- Type `Action` from `tau_bench/types.py`: a tool name plus keyword arguments. -/
structure Action where
  name : PyStr
  kwargs : List (PyStr × PyVal)

/-- Type `Task` from `tau_bench/types.py`: ground-truth actions and the expected
output fragments (the remaining fields are not read by the validator). -/
structure Task where
  user_id : PyStr
  instruction : PyStr
  actions : List Action
  outputs : List PyStr

/-- Python dict lookup `d[key]` as an option (used where the source guards
with `in` or where a missing key raises). -/
def lookupDict {β : Type _} : List (PyStr × β) → PyStr → Option β
  | [], _ => none
  | (k, v) :: rest, key => if k = key then some v else lookupDict rest key

/-- Python dict assignment `d[key] = v`: update in place if the key exists
(keeping insertion order), else append. -/
def dictInsert {β : Type _} : List (PyStr × β) → PyStr → β → List (PyStr × β)
  | [], key, v => [(key, v)]
  | (k, w) :: rest, key, v =>
    if k = key then (k, v) :: rest else (k, w) :: dictInsert rest key v

/-- A tool implementation: `invoke(data=data, **kwargs)` returns whether it
raised and the data state after the call (mutations before an exception
persist). -/
structure ToolImpl where
  invoke : PyVal → List (PyStr × PyVal) → Bool × PyVal

/-- The validator's configuration: `data_load_func`, `tools_map`,
`terminate_tools`. -/
structure TaskValidator where
  data_load_func : Unit → PyVal
  tools_map : List (PyStr × ToolImpl)
  terminate_tools : List PyStr

/-- Method `get_data_hash`: `consistent_hash(to_hashable(data))`. -/
def get_data_hash (data : PyVal) : PyStr := consistent_hash (to_hashable data)

/-- Method `execute_action`: run one action against the data; unknown names and
terminate tools are no-ops, and exceptions from `invoke` are swallowed. -/
def execute_action (v : TaskValidator) (action : Action) (data : PyVal) : PyVal :=
  if (lookupDict v.tools_map action.name).isSome ∧ action.name ∉ v.terminate_tools then
    match lookupDict v.tools_map action.name with
    | some tool => (tool.invoke data action.kwargs).2
    | none => data
  else data

/-- The replay loop of `validate_syntactic`: fold `execute_action` over the
ground-truth actions. -/
def replay (v : TaskValidator) (actions : List Action) (d : PyVal) : PyVal :=
  actions.foldl (fun dd a => execute_action v a dd) d

/-- Type `RewardActionInfo` from `tau_bench/types.py`. -/
structure RewardActionInfo where
  r_actions : Bool
  gt_data_hash : PyStr

/-- Type `RewardOutputInfo` from `tau_bench/types.py`; `outputs` is the
per-fragment found map in insertion order. -/
structure RewardOutputInfo where
  r_outputs : ℚ
  outputs : List (PyStr × Bool)

/-- Field `RewardResult.info` is a union of the two info records. -/
inductive RewardInfo where
  | output (info : RewardOutputInfo)
  | act (info : RewardActionInfo)

/-- Type `RewardResult` from `tau_bench/types.py`. -/
structure RewardResult where
  reward : ℚ
  info : RewardInfo
  actions : List Action

/-- Method `validate_syntactic`: hash the current data, replay the ground truth on a
fresh snapshot, hash that, and compare. -/
def validate_syntactic (v : TaskValidator) (task : Task) (current_data : PyVal) :
    RewardActionInfo :=
  let current_data_hash := get_data_hash current_data
  let gt_data := replay v task.actions (v.data_load_func ())
  let gt_data_hash := get_data_hash gt_data
  { r_actions := decide (current_data_hash = gt_data_hash)
    gt_data_hash := gt_data_hash }

/-- Evaluation of
`expected_output.lower() in action.kwargs["content"].lower().replace(",", "")`
for one action; `none` models the exception raised when `"content"` is
missing or not a string. -/
def fragMatches (expected : PyStr) (action : Action) : Option Bool :=
  match lookupDict action.kwargs contentKey with
  | some (.str content) =>
    some (strIn (lowerStr expected) (removeCommas (lowerStr content)))
  | _ => none

/-- The inner loop of `validate_semantic`: scan the agent's actions for one
expected fragment, short-circuiting at the first respond action that
contains it. -/
def findFragment (expected : PyStr) : List Action → Option Bool
  | [] => some false
  | action :: rest =>
    if action.name = RESPOND_ACTION_NAME then
      match fragMatches expected action with
      | some true => some true
      | some false => findFragment expected rest
      | none => none
    else findFragment expected rest

/-- The outer loop of `validate_semantic` over the expected outputs,
threading `r_outputs` (zeroed at any missing fragment) and the per-fragment
`outputs` dict. -/
def semGo (agent_actions : List Action) :
    ℚ → List (PyStr × Bool) → List PyStr → Option RewardOutputInfo
  | r, acc, [] => some ⟨r, acc⟩
  | r, acc, e :: es =>
    match findFragment e agent_actions with
    | none => none
    | some found => semGo agent_actions (if found then r else 0) (dictInsert acc e found) es

/-- Method `validate_semantic`: trivially passes when the task declares no outputs,
else scans every fragment. -/
def validate_semantic (task : Task) (agent_actions : List Action) :
    Option RewardOutputInfo :=
  if task.outputs.isEmpty then some ⟨1, []⟩
  else semGo agent_actions 1 [] task.outputs

/-- Method `validate_task`: both channels, combined reward, and the info record
picked by whether the task declares outputs. -/
def validate_task (v : TaskValidator) (task : Task) (agent_actions : List Action)
    (current_data : PyVal) : Option RewardResult :=
  let non_respond_actions := task.actions.filter fun a => a.name ≠ RESPOND_ACTION_NAME
  let syntactic_info := validate_syntactic v task current_data
  match validate_semantic task agent_actions with
  | none => none
  | some semantic_info =>
    let reward : ℚ := 1
    let reward := if ¬ syntactic_info.r_actions then 0 else reward
    let reward := if semantic_info.r_outputs < 1 then 0 else reward
    let info := if ¬ task.outputs.isEmpty then RewardInfo.output semantic_info
      else RewardInfo.act syntactic_info
    some ⟨reward, info, non_respond_actions⟩

/-! ### State-threaded variants for the frame condition

To express that validation never mutates `current_data`, these variants
thread the `current_data` object through every operation that receives it
and return its post-call state.  `get_data_hash` only reads its argument
(`to_hashable` builds fresh tuples), so its threaded form returns the
snapshot unchanged; the replay mutations flow only into the snapshot
freshly obtained from `data_load_func`. -/


/-- Reading `get_data_hash` with the post-call state of its argument. -/
def get_data_hash_st (data : PyVal) : PyStr × PyVal := (get_data_hash data, data)

/-- Variant of `validate_syntactic` returning also the post-call `current_data`. -/
def validate_syntactic_st (v : TaskValidator) (task : Task) (current_data : PyVal) :
    RewardActionInfo × PyVal :=
  let hd := get_data_hash_st current_data
  let gt_data := replay v task.actions (v.data_load_func ())
  let gt_data_hash := get_data_hash gt_data
  ({ r_actions := decide (hd.1 = gt_data_hash), gt_data_hash := gt_data_hash }, hd.2)

/-- Variant of `validate_task` returning also the post-call `current_data`. -/
def validate_task_st (v : TaskValidator) (task : Task) (agent_actions : List Action)
    (current_data : PyVal) : Option RewardResult × PyVal :=
  let non_respond_actions := task.actions.filter fun a => a.name ≠ RESPOND_ACTION_NAME
  let syn := validate_syntactic_st v task current_data
  match validate_semantic task agent_actions with
  | none => (none, syn.2)
  | some semantic_info =>
    let reward : ℚ := 1
    let reward := if ¬ (syn.1).r_actions then 0 else reward
    let reward := if semantic_info.r_outputs < 1 then 0 else reward
    let info := if ¬ task.outputs.isEmpty then RewardInfo.output semantic_info
      else RewardInfo.act syn.1
    (some ⟨reward, info, non_respond_actions⟩, syn.2)

/-- A fragment is found by the semantic scan. -/
def fragFound (expected : PyStr) (agent_actions : List Action) : Prop :=
  ∃ a, a ∈ agent_actions ∧ a.name = RESPOND_ACTION_NAME ∧
    fragMatches expected a = some true

/-- The syntactic channel passes: the hash of the current snapshot equals the
hash of the freshly loaded snapshot after replaying the ground-truth
actions. -/
def syntacticPass (v : TaskValidator) (task : Task) (current_data : PyVal) : Prop :=
  get_data_hash current_data = get_data_hash (replay v task.actions (v.data_load_func ()))

/-- The semantic channel passes: every expected output fragment is found
(vacuous for an empty `outputs`). -/
def semanticPass (task : Task) (agent_actions : List Action) : Prop :=
  ∀ e ∈ task.outputs, fragFound e agent_actions

/-- Validator used in witnesses: an empty tool map over an empty snapshot. -/
def wValidator : TaskValidator := ⟨fun _ => PyVal.dict [], [], []⟩

/-- An output-free, action-free task. -/
def wTask : Task := ⟨"u1".data, "noop".data, [], []⟩

def wData : PyVal := PyVal.dict []

/-- The concrete result `validate_task` produces on the witness inputs. -/
def wResult : RewardResult :=
  match validate_task wValidator wTask [] wData with
  | some r => r
  | none => ⟨0, RewardInfo.act ⟨false, []⟩, []⟩

/-- The respond action of the spec's worked example. -/
def wRespond : Action :=
  ⟨"respond".data, [("content".data, .str "task completed, success!".data)]⟩

/-- Task expecting the fragment `SUCCESS`. -/
def wTask3 : Task := ⟨"u1".data, "greet".data, [], ["SUCCESS".data]⟩

/-- The concrete semantic record on the witness inputs. -/
def wOut3 : RewardOutputInfo :=
  match validate_semantic wTask3 [wRespond] with
  | some oi => oi
  | none => ⟨0, []⟩

/-- A fragment with an embedded comma, `"a,b"`. -/
def wFrag10 : PyStr := "a,b".data

/-- Task expecting the comma-containing fragment. -/
def wTask10 : Task := ⟨"u1".data, "report".data, [], [wFrag10]⟩

/-- A respond action whose content contains the fragment's text minus the
comma. -/
def wRespond10 : Action :=
  ⟨"respond".data, [("content".data, .str "a,b".data)]⟩

/-- The concrete semantic record on the witness inputs. -/
def wOut10 : RewardOutputInfo :=
  match validate_semantic wTask10 [wRespond10] with
  | some oi => oi
  | none => ⟨1, []⟩

/-- A tool that mutates the snapshot to `int 7` and then raises. -/
def wRaisingTool : ToolImpl := ⟨fun _ _ => (true, PyVal.int 7)⟩

/-- Validator for the C5 witness: one raising tool, one terminate tool. -/
def wValidator5 : TaskValidator :=
  ⟨fun _ => PyVal.dict [],
   [("boom".data, wRaisingTool), ("done".data, ⟨fun d _ => (false, d)⟩)],
   ["done".data]⟩

/-- A two-key dict. -/
def wDictA : PyVal := .dict [("a".data, .int 1), ("b".data, .int 2)]

/-- The same dict with its keys in the other order. -/
def wDictB : PyVal := .dict [("b".data, .int 2), ("a".data, .int 1)]

/-! ## Component resolution (`tau_bench/envs/generic.py`)

`_load_data_function` and `_load_tasks` resolve a string ref first as a
dotted module path, then as a file under the configuration base path.  The import
system and filesystem are external collaborators, modelled by an
environment: `importModule name` is the attribute table of the imported
module (`none`: the import raised), `fileExists ref` is
`(config_base_path / ref).exists()`, and `execFile ref` is the attribute
table of the module executed from that file (`none`: loading raised).  Bound
values (functions, task lists) are opaque, hence the type parameter. -/

structure PyModuleEnv (α : Type _) where
  importModule : PyStr → Option (List (PyStr × α))
  fileExists : PyStr → Bool
  execFile : PyStr → Option (List (PyStr × α))

/-- Split `module_path.rsplit('.', 1)` unpacked into two names; `none` models the
`ValueError` when there is no dot. -/
def rsplitDot (s : PyStr) : Option (PyStr × PyStr) :=
  if '.' ∈ s then
    let post := (s.reverse.takeWhile fun c => c ≠ '.').reverse
    some ((s.reverse.drop (post.length + 1)).reverse, post)
  else none

/-- Loop `for name in names: if hasattr(module, name): return getattr(module, name)` —
the first present name wins. -/
def getattrFirst {α : Type _} (mod : List (PyStr × α)) : List PyStr → Option α
  | [] => none
  | n :: ns =>
    match lookupDict mod n with
    | some v => some v
    | none => getattrFirst mod ns

/-- The conventional data-loader names, in the source's fixed order. -/
def DATA_FUNC_NAMES : List PyStr := ["load_data".data, "load".data, "get_data".data]

/-- The conventional task-list names, in the source's fixed order. -/
def TASK_VAR_NAMES : List PyStr :=
  ["TASKS".data, "TASKS_TEST".data, "TASKS_TRAIN".data, "TASKS_DEV".data,
   "tasks".data]

/-- Strategy 1 of `_load_data_function`: split the ref at its last dot, import
the module, and take the named attribute; `ValueError`, `ImportError`
and `AttributeError` all yield `none` (the `except ... pass`). -/
def loadDataSymbolic {α : Type _} (env : PyModuleEnv α) (module_path : PyStr) :
    Option α :=
  match rsplitDot module_path with
  | some (module_name, func_name) =>
    match env.importModule module_name with
    | some mod => lookupDict mod func_name
    | none => none
  | none => none

/-- Strategy 2 of `_load_data_function`: if the file exists, execute it and
probe the conventional names in order. -/
def loadDataFile {α : Type _} (env : PyModuleEnv α) (module_path : PyStr) :
    Option α :=
  if env.fileExists module_path then
    match env.execFile module_path with
    | some mod => getattrFirst mod DATA_FUNC_NAMES
    | none => none
  else none

/-- Method `_load_data_function`: strategy 1, then strategy 2; `none` models the
final `raise ImportError`. -/
def load_data_function {α : Type _} (env : PyModuleEnv α) (module_path : PyStr) :
    Option α :=
  match loadDataSymbolic env module_path with
  | some f => some f
  | none => loadDataFile env module_path

/-- Strategy 1 of `_load_tasks`: import the ref as a module and probe the
conventional variable names; falls through both on `ImportError` and when no
conventional name is present. -/
def loadTasksSymbolic {α : Type _} (env : PyModuleEnv α) (task_file : PyStr) :
    Option α :=
  match env.importModule task_file with
  | some mod => getattrFirst mod TASK_VAR_NAMES
  | none => none

/-- Strategy 2 of `_load_tasks`: execute the ref as a file and probe the same
names. -/
def loadTasksFile {α : Type _} (env : PyModuleEnv α) (task_file : PyStr) :
    Option α :=
  if env.fileExists task_file then
    match env.execFile task_file with
    | some mod => getattrFirst mod TASK_VAR_NAMES
    | none => none
  else none

/-- Method `_load_tasks`: look the split up in `task_splits` (`none` models the
`ValueError` for a missing split), then strategy 1, then strategy 2. -/
def load_tasks {α : Type _} (env : PyModuleEnv α)
    (task_splits : List (PyStr × PyStr)) (task_split : PyStr) : Option α :=
  match lookupDict task_splits task_split with
  | none => none
  | some task_file =>
    match loadTasksSymbolic env task_file with
    | some v => some v
    | none => loadTasksFile env task_file

/-- An environment for the C7 witness: the module `pkg.data` exports
`load_fn ↦ 41`; the file ref `ld.py` exists and exports `load ↦ 42` (but no
`load_data`); the task module `tasklist` exports `TASKS_TEST ↦ 43` and
`tasks ↦ 44`. -/
def wEnv7 : PyModuleEnv Nat :=
  ⟨fun name =>
    if name = "pkg.data".data then some [("load_fn".data, 41)]
    else if name = "tasklist".data then
      some [("TASKS_TEST".data, 43), ("tasks".data, 44)]
    else none,
   fun ref => ref = "ld.py".data,
   fun ref => if ref = "ld.py".data then some [("load".data, 42)] else none⟩

/-- The same environment with the file strategy disabled entirely. -/
def wEnv7NoFiles : PyModuleEnv Nat :=
  ⟨wEnv7.importModule, fun _ => false, fun _ => none⟩

/-! ## The semantic validator's tool map
(`tau_bench/task_validation.py`, `SemanticValidator.__init__`)

  ```python
  self.tool_map = {tool.__name__.lower(): tool for tool in tools}
  for tool in tools:
      try:
          info = tool.get_info()
          func_name = info['function']['name']
          self.tool_map[func_name] = tool
      except:
          pass
  ```

A tool is its `__name__`, the invocation name its `get_info()` declares
(`none` when `get_info` raises), and an identity tag to tell instances
apart. -/

structure SemTool where
  pyName : PyStr
  infoName : Option PyStr
  tag : Nat
deriving DecidableEq

/-- The tool map `SemanticValidator.__init__` builds. -/
def build_tool_map (tools : List SemTool) : List (PyStr × SemTool) :=
  let base := tools.foldl (fun m t => dictInsert m (lowerStr t.pyName) t) []
  tools.foldl
    (fun m t =>
      match t.infoName with
      | some fn => dictInsert m fn t
      | none => m)
    base

def wToolA : SemTool := ⟨"dup".data, none, 1⟩

def wToolB : SemTool := ⟨"dup".data, none, 2⟩

/-! ## Domain discovery (`tau_bench/domain_config.py`, `DomainRegistry`)

`discover_domains` scans the root for `domain.yaml`, `domain.yml`, and
`domain.json` files, loading each with `load_domain_from_file`, which parses
and registers the configuration; any exception is caught and turned into a
printed warning.  The filesystem and the YAML/JSON parser are external
collaborators: a descriptor file is its path plus the parse outcome (`none`
models any exception while opening, parsing or validating). -/


/-- A domain configuration; discovery and registration read only `name`, so
the remaining descriptor fields are summarised by `tag`. -/
structure DomainConfig0 where
  name : PyStr
  tag : Nat

/-- A descriptor file found during the scan. -/
structure DescriptorFile where
  path : PyStr
  parsed : Option DomainConfig0

/-- A discovery root: whether the directory exists and the files each
`rglob` pattern yields, in scan order. -/
structure DiscoveryRoot where
  dirExists : Bool
  yamlFiles : List DescriptorFile
  ymlFiles : List DescriptorFile
  jsonFiles : List DescriptorFile

/-- The registry's `name -> DomainConfig` mapping. -/
abbrev Registry := List (PyStr × DomainConfig0)

/-- Method `load_domain_from_file`: parse, register (overwriting an existing name),
and return the configuration; `none` models the raised exception. -/
def load_domain_from_file (reg : Registry) (f : DescriptorFile) :
    Option (DomainConfig0 × Registry) :=
  match f.parsed with
  | some config => some (config, dictInsert reg config.name config)
  | none => none

/-- The warning `discover_domains` prints for a failed file. -/
def warnMsg (path : PyStr) : PyStr :=
  "Warning: Failed to load domain config ".data ++ path

/-- Discovery state: the registry plus collected configs and warnings. -/
structure DiscoverState where
  reg : Registry
  configs : List DomainConfig0
  warnings : List PyStr

/-- One iteration of a discovery loop: a successful load appends the config,
a failed one appends a warning and continues. -/
def discoverStep (st : DiscoverState) (f : DescriptorFile) : DiscoverState :=
  match load_domain_from_file st.reg f with
  | some (config, reg2) => ⟨reg2, st.configs ++ [config], st.warnings⟩
  | none => ⟨st.reg, st.configs, st.warnings ++ [warnMsg f.path]⟩

/-- All descriptor files of the root in scan order (`domain.yaml` files, then
`domain.yml`, then `domain.json`). -/
def rootFiles (root : DiscoveryRoot) : List DescriptorFile :=
  root.yamlFiles ++ root.ymlFiles ++ root.jsonFiles

/-- Method `discover_domains`: an absent root yields no configs; otherwise every
found file is processed, continuing past failures. -/
def discover_domains (reg : Registry) (root : DiscoveryRoot) : DiscoverState :=
  if root.dirExists then (rootFiles root).foldl discoverStep ⟨reg, [], []⟩
  else ⟨reg, [], []⟩

/-- A well-formed descriptor file. -/
def wGoodFile : DescriptorFile :=
  ⟨"domains/x/domain.yaml".data, some ⟨"x".data, 0⟩⟩

/-- A malformed descriptor file. -/
def wBadFile : DescriptorFile := ⟨"domains/y/domain.yaml".data, none⟩

/-- A root containing exactly the two files. -/
def wRoot : DiscoveryRoot := ⟨true, [wGoodFile, wBadFile], [], []⟩

/-!
# Theorems

Everything below is proof: first the supporting lemmas, then one theorem per
claim with its witness or counterexample.  (The comparator laws above sit
among the definitions because the sorting instances used by `to_hashable`
depend on them.)
-/

/-- Every character of a needle that occurs as a substring occurs in the
haystack. -/
theorem mem_of_strIn {needle hay : PyStr} (h : strIn needle hay = true)
    {c : Char} (hc : c ∈ needle) : c ∈ hay := by
  induction hay with
  | nil =>
    rw [strIn] at h
    simp only [Bool.or_eq_true] at h
    rcases h with h | h
    · cases needle with
      | nil => cases hc
      | cons a t => simp [List.isPrefixOf] at h
    · cases h
  | cons a t ih =>
    rw [strIn] at h
    simp only [Bool.or_eq_true] at h
    rcases h with h | h
    · have hpre : needle <+: (a :: t) := List.isPrefixOf_iff_prefix.mp h
      exact hpre.subset hc
    · exact List.mem_cons_of_mem a (ih h)

/-- Commas survive ASCII lower-casing. -/
theorem comma_mem_lowerStr {s : PyStr} (h : ',' ∈ s) : ',' ∈ lowerStr s := by
  have : Char.toLower ',' = ',' := by decide
  exact this ▸ List.mem_map_of_mem Char.toLower h

/-- Filtering `removeCommas` leaves no comma behind. -/
theorem comma_not_mem_removeCommas (s : PyStr) : ',' ∉ removeCommas s := by
  intro h
  have := List.of_mem_filter h
  simp at this

/-- Every hex digest has exactly 64 characters. -/
theorem sha256Hex_length (msg : List Nat) : (sha256Hex msg).length = 64 := by
  simp [sha256Hex, hex8]

theorem hashList_eq_map (es : List PyVal) : hashList es = es.map to_hashable := by
  induction es with
  | nil => rfl
  | cons v rest ih => rw [hashList, List.map_cons, ih]

theorem hashEntries_eq_map (es : List (PyStr × PyVal)) :
    hashEntries es = es.map fun e => (e.1, to_hashable e.2) := by
  induction es with
  | nil => rfl
  | cons e rest ih =>
    obtain ⟨k, v⟩ := e
    rw [hashEntries, List.map_cons, ih]

/-- Two sorted lists that are permutations of each other are equal, given
antisymmetry of the order on the elements actually present. -/
theorem eq_of_perm_of_sorted_anti {α : Type _} {r : α → α → Prop} :
    ∀ {l₁ l₂ : List α}, l₁.Perm l₂ → l₁.Sorted r → l₂.Sorted r →
      (∀ a ∈ l₁, ∀ b ∈ l₁, r a b → r b a → a = b) → l₁ = l₂
  | [], l₂, hp, _, _, _ => hp.symm.eq_nil.symm
  | a :: t₁, [], hp, _, _, _ => by cases hp.eq_nil
  | a :: t₁, b :: t₂, hp, hs₁, hs₂, hanti => by
    have hamem : a ∈ b :: t₂ := hp.subset (List.mem_cons_self a t₁)
    have hbmem : b ∈ a :: t₁ := hp.symm.subset (List.mem_cons_self b t₂)
    have hab : a = b := by
      rcases List.mem_cons.mp hamem with h | hat2
      · exact h
      rcases List.mem_cons.mp hbmem with h | hbt1
      · exact h.symm
      have r1 : r a b := (List.sorted_cons.mp hs₁).1 b hbt1
      have r2 : r b a := (List.sorted_cons.mp hs₂).1 a hat2
      exact hanti a (List.mem_cons_self a t₁) b (List.mem_cons_of_mem a hbt1) r1 r2
    subst hab
    have ht : t₁ = t₂ :=
      eq_of_perm_of_sorted_anti hp.cons_inv (List.sorted_cons.mp hs₁).2
        (List.sorted_cons.mp hs₂).2
        fun x hx y hy => hanti x (List.mem_cons_of_mem a hx) y (List.mem_cons_of_mem a hy)
    rw [ht]

theorem entryTup_injective : Function.Injective entryTup := by
  rintro ⟨k, v⟩ ⟨l, w⟩ h
  simp only [entryTup, HVal.tup.injEq, List.cons.injEq, HVal.str.injEq, and_true] at h
  simp [h.1, h.2]

theorem hcmp_swap (x y : HVal) : hcmp y x = (hcmp x y).swap := kcmp_swap _ _

theorem hcmp_eq_symm {x y : HVal} (h : hcmp x y ≠ .eq) : hcmp y x ≠ .eq := by
  rw [hcmp_swap]
  rcases hxy : hcmp x y with - | - | - <;> simp [Ordering.swap]
  exact absurd hxy h

/-- Relation `entryLe` in both directions forces equal keys. -/
theorem entryLe_antisymm_keys {p q : PyStr × HVal} (h1 : entryLe p q) (h2 : entryLe q p) :
    p.1 = q.1 := by
  unfold entryLe at h1 h2
  rw [scmp_swap] at h2
  rcases h : scmp p.1 q.1 with - | - | -
  · rw [h] at h2
    simp [Ordering.swap] at h2
  · exact scmp_eq_iff.mp h
  · exact absurd h h1

/-- Relation `hvalLe` in both directions forces comparator equality. -/
theorem hvalLe_antisymm_cmp {x y : HVal} (h1 : hvalLe x y) (h2 : hvalLe y x) :
    hcmp x y = .eq := by
  unfold hvalLe at h1 h2
  rw [hcmp_swap] at h2
  rcases h : hcmp x y with - | - | -
  · rw [h] at h2
    simp [Ordering.swap] at h2
  · rfl
  · exact absurd h h1

/-- Canonicalization is invariant under `SEquiv`: snapshots that differ only
in dict-key order or set-element order canonicalize identically. -/
theorem to_hashable_sequiv {a b : PyVal} (h : SEquiv a b) :
    to_hashable a = to_hashable b := by
  induction h with
  | refl v => rfl
  | trans h1 h2 ih1 ih2 => rw [ih1, ih2]
  | @listCons x y xs ys hxy hrest ih1 ih2 =>
    rw [to_hashable, to_hashable] at ih2 ⊢
    rw [hashList, hashList]
    have h2 : hashList xs = hashList ys := by injection ih2
    rw [ih1, h2]
  | @dictCons k v w es fs hvw hrest ih1 ih2 =>
    rw [to_hashable, to_hashable] at ih2 ⊢
    have hsort : List.insertionSort entryLe (hashEntries es) =
        List.insertionSort entryLe (hashEntries fs) :=
      List.map_injective_iff.mpr entryTup_injective (by injection ih2)
    rw [hashEntries, hashEntries, List.insertionSort, List.insertionSort, ih1, hsort]
  | @setCons x y xs ys hxy hrest ih1 ih2 =>
    rw [to_hashable, to_hashable] at ih2 ⊢
    have h2 : List.insertionSort hvalLe (hashList xs) =
        List.insertionSort hvalLe (hashList ys) := by injection ih2
    rw [hashList, hashList, List.insertionSort, List.insertionSort, ih1, h2]
  | @dictPerm es fs hperm hnodup =>
    rw [to_hashable, to_hashable]
    suffices hs : List.insertionSort entryLe (hashEntries es) =
        List.insertionSort entryLe (hashEntries fs) by rw [hs]
    have hpm : (hashEntries es).Perm (hashEntries fs) := by
      rw [hashEntries_eq_map, hashEntries_eq_map]
      exact hperm.map _
    apply eq_of_perm_of_sorted_anti
      ((List.perm_insertionSort entryLe _).trans
        (hpm.trans (List.perm_insertionSort entryLe _).symm))
      (List.sorted_insertionSort entryLe _) (List.sorted_insertionSort entryLe _)
    intro p hp q hq hpq hqp
    have hkey : p.1 = q.1 := entryLe_antisymm_keys hpq hqp
    have hp' : p ∈ hashEntries es := (List.mem_insertionSort entryLe).mp hp
    have hq' : q ∈ hashEntries es := (List.mem_insertionSort entryLe).mp hq
    by_cases hidem : p = q
    · exact hidem
    · exfalso
      have hpw : (hashEntries es).Pairwise fun p q => p.1 ≠ q.1 := by
        have hnodup' : ((hashEntries es).map Prod.fst).Nodup := by
          rw [hashEntries_eq_map, List.map_map]
          exact hnodup
        rw [List.Nodup, List.pairwise_map] at hnodup'
        exact hnodup'
      have hsymm : Symmetric fun p q : PyStr × HVal => p.1 ≠ q.1 := by
        intro p q hne heq
        exact hne heq.symm
      exact (hpw.forall hsymm hp' hq' hidem) hkey
  | @setPerm es fs hperm hok =>
    rw [to_hashable, to_hashable]
    suffices hs : List.insertionSort hvalLe (hashList es) =
        List.insertionSort hvalLe (hashList fs) by rw [hs]
    have hpm : (hashList es).Perm (hashList fs) := by
      rw [hashList_eq_map, hashList_eq_map]
      exact hperm.map _
    apply eq_of_perm_of_sorted_anti
      ((List.perm_insertionSort hvalLe _).trans
        (hpm.trans (List.perm_insertionSort hvalLe _).symm))
      (List.sorted_insertionSort hvalLe _) (List.sorted_insertionSort hvalLe _)
    intro x hx y hy hxy hyx
    have hcmpeq : hcmp x y = .eq := hvalLe_antisymm_cmp hxy hyx
    have hx' : x ∈ hashList es := (List.mem_insertionSort hvalLe).mp hx
    have hy' : y ∈ hashList es := (List.mem_insertionSort hvalLe).mp hy
    by_cases hidem : x = y
    · exact hidem
    · exfalso
      have hpw := hok
      rw [SetOk, ← hashList_eq_map] at hpw
      have hsymm : Symmetric fun x y : HVal => hcmp x y ≠ .eq := by
        intro x y hne
        exact hcmp_eq_symm hne
      exact (hpw.forall hsymm hx' hy' hidem) hcmpeq

/-! ### Dict and semantic-scan lemmas -/

theorem lookup_dictInsert_self {β : Type _} (acc : List (PyStr × β)) (k : PyStr) (v : β) :
    lookupDict (dictInsert acc k v) k = some v := by
  induction acc with
  | nil => simp [dictInsert, lookupDict]
  | cons e rest ih =>
    obtain ⟨k', w⟩ := e
    by_cases h : k' = k
    · simp [dictInsert, h, lookupDict]
    · simp [dictInsert, h, lookupDict, ih]

theorem lookup_dictInsert_ne {β : Type _} (acc : List (PyStr × β)) {k q : PyStr} (v : β)
    (h : k ≠ q) : lookupDict (dictInsert acc k v) q = lookupDict acc q := by
  induction acc with
  | nil => simp [dictInsert, lookupDict, h]
  | cons e rest ih =>
    obtain ⟨k', w⟩ := e
    by_cases h2 : k' = k
    · subst h2
      simp [dictInsert, lookupDict, h]
    · simp [dictInsert, h2, lookupDict, ih]

/-- When the scan completes, it reports `true` exactly when some respond
action contains the fragment. -/
theorem findFragment_spec {e : PyStr} :
    ∀ {acts : List Action} {b : Bool}, findFragment e acts = some b →
      (b = true ↔ fragFound e acts)
  | [], b, h => by
    rw [findFragment] at h
    injection h with h
    subst h
    simp [fragFound]
  | action :: rest, b, h => by
    rw [findFragment] at h
    by_cases hn : action.name = RESPOND_ACTION_NAME
    · rw [if_pos hn] at h
      cases hm : fragMatches e action with
      | some tv =>
        cases tv with
        | true =>
          rw [hm] at h
          injection h with h
          subst h
          simp only [true_iff]
          exact ⟨action, List.mem_cons_self _ _, hn, hm⟩
        | false =>
          rw [hm] at h
          have ih := findFragment_spec h
          rw [ih]
          constructor
          · rintro ⟨a, ha, hna, hmt⟩
            exact ⟨a, List.mem_cons_of_mem _ ha, hna, hmt⟩
          · rintro ⟨a, ha, hna, hmt⟩
            rcases List.mem_cons.mp ha with rfl | ha2
            · rw [hm] at hmt
              cases hmt
            · exact ⟨a, ha2, hna, hmt⟩
      | none =>
        rw [hm] at h
        cases h
    · rw [if_neg hn] at h
      have ih := findFragment_spec h
      rw [ih]
      constructor
      · rintro ⟨a, ha, hna, hmt⟩
        exact ⟨a, List.mem_cons_of_mem _ ha, hna, hmt⟩
      · rintro ⟨a, ha, hna, hmt⟩
        rcases List.mem_cons.mp ha with rfl | ha2
        · exact absurd hna hn
        · exact ⟨a, ha2, hna, hmt⟩

/-- Behaviour of the `r_outputs` accumulator: the final value is `1` iff it
started at `1` and every remaining fragment scans to `true`; moreover it
either keeps its initial value or collapses to `0`. -/
theorem semGo_r_spec {A : List Action} :
    ∀ {es : List PyStr} {r : ℚ} {acc : List (PyStr × Bool)} {r' : ℚ}
      {out : List (PyStr × Bool)}, semGo A r acc es = some ⟨r', out⟩ →
      ((r' = 1 ↔ (r = 1 ∧ ∀ e ∈ es, findFragment e A = some true)) ∧
        (r' = r ∨ r' = 0))
  | [], r, acc, r', out, h => by
    rw [semGo] at h
    injection h with h
    obtain ⟨h1, -⟩ := RewardOutputInfo.mk.injEq .. ▸ h
    · constructor
      · rw [← h1]
        simp
      · left
        rw [h1]
  | e :: es, r, acc, r', out, h => by
    rw [semGo] at h
    cases hf : findFragment e A with
    | none => rw [hf] at h; cases h
    | some found =>
      rw [hf] at h
      have ih := semGo_r_spec h
      cases found with
      | true =>
        rw [if_pos rfl] at ih
        constructor
        · rw [ih.1]
          constructor
          · rintro ⟨hr, hall⟩
            refine ⟨hr, fun e' he' => ?_⟩
            rcases List.mem_cons.mp he' with rfl | he2
            · exact hf
            · exact hall e' he2
          · rintro ⟨hr, hall⟩
            exact ⟨hr, fun e' he' => hall e' (List.mem_cons_of_mem _ he')⟩
        · exact ih.2
      | false =>
        rw [if_neg Bool.false_ne_true] at ih
        constructor
        · constructor
          · intro hr'
            exact absurd ((ih.1.mp hr').1.symm) (by norm_num)
          · rintro ⟨-, hall⟩
            have := hall e (List.mem_cons_self _ _)
            rw [hf] at this
            cases this
        · rcases ih.2 with h0 | h0
          · right
            exact h0
          · right
            exact h0

/-- When the whole scan completes, every listed fragment was scanned without
an exception. -/
theorem semGo_found_exists {A : List Action} :
    ∀ {es : List PyStr} {r : ℚ} {acc : List (PyStr × Bool)}
      {res : RewardOutputInfo}, semGo A r acc es = some res →
      ∀ {e : PyStr}, e ∈ es → ∃ b, findFragment e A = some b
  | [], _, _, _, _, _, he => absurd he (List.not_mem_nil _)
  | e' :: es, r, acc, res, h, e, he => by
    rw [semGo] at h
    cases hf : findFragment e' A with
    | none => rw [hf] at h; cases h
    | some found =>
      rw [hf] at h
      rcases List.mem_cons.mp he with rfl | he2
      · exact ⟨found, hf⟩
      · exact semGo_found_exists h he2

/-- Entries present in the accumulator with the fragment's own scan value
survive to the final `outputs` map. -/
theorem semGo_lookup_pres {A : List Action} :
    ∀ {es : List PyStr} {r : ℚ} {acc : List (PyStr × Bool)} {r' : ℚ}
      {out : List (PyStr × Bool)} {e : PyStr} {fv : Bool},
      semGo A r acc es = some ⟨r', out⟩ → findFragment e A = some fv →
      lookupDict acc e = some fv → lookupDict out e = some fv
  | [], r, acc, r', out, e, fv, h, _, hacc => by
    rw [semGo] at h
    injection h with h
    obtain ⟨-, h2⟩ := RewardOutputInfo.mk.injEq .. ▸ h
    · rw [← h2]
      exact hacc
  | e' :: es, r, acc, r', out, e, fv, h, hf, hacc => by
    rw [semGo] at h
    cases hf' : findFragment e' A with
    | none => rw [hf'] at h; cases h
    | some found =>
      rw [hf'] at h
      by_cases hk : e' = e
      · subst hk
        rw [hf] at hf'
        injection hf' with hf'
        subst hf'
        exact semGo_lookup_pres h hf (lookup_dictInsert_self acc e' fv)
      · exact semGo_lookup_pres h hf
          ((lookup_dictInsert_ne acc found hk).trans hacc)

/-- Every listed fragment ends up in the final `outputs` map with its scan
value. -/
theorem semGo_lookup_mem {A : List Action} :
    ∀ {es : List PyStr} {r : ℚ} {acc : List (PyStr × Bool)} {r' : ℚ}
      {out : List (PyStr × Bool)} {e : PyStr} {fv : Bool},
      semGo A r acc es = some ⟨r', out⟩ → e ∈ es →
      findFragment e A = some fv → lookupDict out e = some fv
  | [], _, _, _, _, _, _, _, he, _ => absurd he (List.not_mem_nil _)
  | e' :: es, r, acc, r', out, e, fv, h, he, hf => by
    rw [semGo] at h
    cases hf' : findFragment e' A with
    | none => rw [hf'] at h; cases h
    | some found =>
      rw [hf'] at h
      by_cases hk : e' = e
      · subst hk
        rw [hf] at hf'
        injection hf' with hf'
        subst hf'
        exact semGo_lookup_pres h hf (lookup_dictInsert_self acc e' fv)
      · rcases List.mem_cons.mp he with rfl | he2
        · exact absurd rfl hk
        · exact semGo_lookup_mem h he2 hf

/-- Conversely, every entry of the final `outputs` map records the fragment's
scan value. -/
theorem semGo_lookup_inv {A : List Action} :
    ∀ {es : List PyStr} {r : ℚ} {acc : List (PyStr × Bool)} {r' : ℚ}
      {out : List (PyStr × Bool)},
      semGo A r acc es = some ⟨r', out⟩ →
      (∀ e b, lookupDict acc e = some b → findFragment e A = some b) →
      ∀ e b, lookupDict out e = some b → findFragment e A = some b
  | [], r, acc, r', out, h, hacc => by
    rw [semGo] at h
    injection h with h
    obtain ⟨-, h2⟩ := RewardOutputInfo.mk.injEq .. ▸ h
    · rw [← h2]
      exact hacc
  | e' :: es, r, acc, r', out, h, hacc => by
    rw [semGo] at h
    cases hf' : findFragment e' A with
    | none => rw [hf'] at h; cases h
    | some found =>
      rw [hf'] at h
      refine semGo_lookup_inv h ?_
      intro e b hl
      by_cases hk : e' = e
      · subst hk
        rw [lookup_dictInsert_self] at hl
        injection hl with hl
        subst hl
        exact hf'
      · rw [lookup_dictInsert_ne acc found hk] at hl
        exact hacc e b hl

theorem validate_semantic_r_outputs {task : Task} {A : List Action}
    {si : RewardOutputInfo} (h : validate_semantic task A = some si) :
    (si.r_outputs = 1 ↔ semanticPass task A) ∧
      (si.r_outputs = 1 ∨ si.r_outputs = 0) := by
  rw [validate_semantic] at h
  by_cases he : task.outputs.isEmpty
  · rw [if_pos he] at h
    injection h with h
    subst h
    constructor
    · simp only [true_iff]
      intro e hmem
      rw [List.isEmpty_iff.mp he] at hmem
      cases hmem
    · left
      rfl
  · rw [if_neg he] at h
    obtain ⟨r', out⟩ := si
    have hs := semGo_r_spec h
    refine ⟨?_, hs.2⟩
    simp only at hs ⊢
    rw [hs.1]
    simp only [true_and]
    constructor
    · intro hall e hmem
      exact (findFragment_spec (hall e hmem)).mp rfl
    · intro hpass e hmem
      obtain ⟨b, hb⟩ := semGo_found_exists h hmem
      have : b = true := (findFragment_spec hb).mpr (hpass e hmem)
      rw [this] at hb
      exact hb

/-- C1: `validate_task` returns reward 1.0 iff the syntactic channel (hash of
the current snapshot equals the hash of the freshly loaded snapshot after
replaying the ground-truth actions) and the semantic channel (every expected
fragment found) both pass; otherwise the reward is 0.0; and the returned
info is the semantic per-fragment record when `task.outputs` is non-empty,
else the syntactic hash record. -/
theorem C1_validate_task_reward (v : TaskValidator) (task : Task)
    (agent_actions : List Action) (current_data : PyVal) (r : RewardResult)
    (h : validate_task v task agent_actions current_data = some r) :
    (r.reward = 1 ↔
      (syntacticPass v task current_data ∧ semanticPass task agent_actions)) ∧
    (r.reward = 1 ∨ r.reward = 0) ∧
    (task.outputs ≠ [] → ∃ si, validate_semantic task agent_actions = some si ∧
      r.info = RewardInfo.output si) ∧
    (task.outputs = [] →
      r.info = RewardInfo.act (validate_syntactic v task current_data)) := by
  rw [validate_task] at h
  cases hsem : validate_semantic task agent_actions with
  | none => rw [hsem] at h; cases h
  | some si =>
    rw [hsem] at h
    injection h with h
    subst h
    have hbridge := validate_semantic_r_outputs hsem
    constructor
    · simp only
      constructor
      · intro hr
        by_cases ho : si.r_outputs < 1
        · rw [if_pos ho] at hr
          exact absurd hr (by norm_num)
        by_cases hs : (validate_syntactic v task current_data).r_actions = true
        · refine ⟨?_, hbridge.1.mp ?_⟩
          · have h2 := hs
            simp only [validate_syntactic, decide_eq_true_eq] at h2
            exact h2
          · rcases hbridge.2 with h1 | h0
            · exact h1
            · rw [h0] at ho
              exact absurd (by norm_num) ho
        · rw [if_neg ho, if_pos hs] at hr
          exact absurd hr (by norm_num)
      · rintro ⟨hsyn, hsem2⟩
        have hact : (validate_syntactic v task current_data).r_actions = true := by
          simp only [validate_syntactic, decide_eq_true_eq]
          exact hsyn
        have hout : si.r_outputs = 1 := hbridge.1.mpr hsem2
        rw [hout, if_neg (by norm_num), if_neg fun hc => hc hact]
    constructor
    · simp only
      by_cases ho : si.r_outputs < 1
      · rw [if_pos ho]
        right
        rfl
      · rw [if_neg ho]
        by_cases hs : (validate_syntactic v task current_data).r_actions = true
        · rw [if_neg fun hc => hc hs]
          left
          rfl
        · rw [if_pos hs]
          right
          rfl
    constructor
    · intro hne
      refine ⟨si, rfl, ?_⟩
      simp only
      rw [if_pos fun hemp => hne (List.isEmpty_iff.mp hemp)]
    · intro hnil
      simp only
      rw [if_neg fun hc => hc (by rw [hnil]; rfl)]

theorem C1_witness :
    validate_task wValidator wTask [] wData = some wResult ∧ wResult.reward = 1 :=
  ⟨rfl,
   (C1_validate_task_reward wValidator wTask [] wData wResult rfl).1.mpr
     ⟨rfl, fun e hmem => absurd hmem (List.not_mem_nil e)⟩⟩

/-- C3: the semantic channel counts a fragment as found iff some agent action
named `respond` has a `content` whose lowercased, comma-stripped text
contains the lowercased fragment as a substring; and `r_outputs = 1.0` iff
every fragment of `task.outputs` is found (vacuously when `outputs` is
empty). -/
theorem C3_semantic_rule (task : Task) (agent_actions : List Action)
    (oi : RewardOutputInfo) (h : validate_semantic task agent_actions = some oi) :
    (∀ e b, lookupDict oi.outputs e = some b →
      (b = true ↔ fragFound e agent_actions)) ∧
    (oi.r_outputs = 1 ↔ semanticPass task agent_actions) := by
  refine ⟨?_, (validate_semantic_r_outputs h).1⟩
  rw [validate_semantic] at h
  by_cases he : task.outputs.isEmpty
  · rw [if_pos he] at h
    injection h with h
    subst h
    intro e b hl
    rw [lookupDict] at hl
    cases hl
  · rw [if_neg he] at h
    obtain ⟨r', out⟩ := oi
    intro e b hl
    have hf : findFragment e agent_actions = some b :=
      semGo_lookup_inv h (fun e b hacc => by rw [lookupDict] at hacc; cases hacc) e b hl
    exact findFragment_spec hf

theorem C3_witness :
    validate_semantic wTask3 [wRespond] = some wOut3 ∧
      lookupDict wOut3.outputs "SUCCESS".data = some true ∧
      (wOut3.r_outputs = 1 ↔ semanticPass wTask3 [wRespond]) :=
  ⟨rfl, rfl, (C3_semantic_rule wTask3 [wRespond] wOut3 rfl).2⟩

/-- C10: because commas are stripped only from a respond action's content and
never from the expected fragment, a fragment containing a comma followed by a
non-empty remainder can never be found: on every agent action list whose scan
completes it is reported as not found, and `r_outputs` is forced to `0.0`
whenever `task.outputs` contains such a fragment. -/
theorem C10_comma_fragment_never_found (e pre post : PyStr)
    (he : e = pre ++ ',' :: post) (hpost : post ≠ []) (task : Task)
    (agent_actions : List Action) (oi : RewardOutputInfo)
    (h : validate_semantic task agent_actions = some oi) (hmem : e ∈ task.outputs) :
    lookupDict oi.outputs e = some false ∧ oi.r_outputs = 0 := by
  have hnotfound : ∀ a : Action, fragMatches e a ≠ some true := by
    intro a hmt
    rw [fragMatches] at hmt
    cases hl : lookupDict a.kwargs contentKey with
    | none => rw [hl] at hmt; cases hmt
    | some cv =>
      cases cv with
      | str content =>
        rw [hl] at hmt
        injection hmt with hmt
        have hcomma : ',' ∈ e := by
          rw [he]
          exact List.mem_append_right pre (List.mem_cons_self ',' post)
        have h1 : ',' ∈ lowerStr e := comma_mem_lowerStr hcomma
        have h2 := mem_of_strIn hmt h1
        exact comma_not_mem_removeCommas (lowerStr content) h2
      | int n => rw [hl] at hmt; cases hmt
      | bool b => rw [hl] at hmt; cases hmt
      | dict es => rw [hl] at hmt; cases hmt
      | list es => rw [hl] at hmt; cases hmt
      | set es => rw [hl] at hmt; cases hmt
      | obj i => rw [hl] at hmt; cases hmt
  have hnotfrag : ¬ fragFound e agent_actions := by
    rintro ⟨a, -, -, hmt⟩
    exact hnotfound a hmt
  rw [validate_semantic] at h
  have hne : ¬ task.outputs.isEmpty := by
    intro hemp
    rw [List.isEmpty_iff.mp hemp] at hmem
    cases hmem
  rw [if_neg hne] at h
  obtain ⟨r', out⟩ := oi
  obtain ⟨b, hb⟩ := semGo_found_exists h hmem
  have hbf : b = false := by
    cases b with
    | false => rfl
    | true => exact absurd ((findFragment_spec hb).mp rfl) hnotfrag
  subst hbf
  refine ⟨semGo_lookup_mem h hmem hb, ?_⟩
  have hs := semGo_r_spec h
  simp only at hs ⊢
  rcases hs.2 with h1 | h0
  · exfalso
    have := hs.1.mp h1
    have h2 := this.2 e hmem
    rw [hb] at h2
    cases h2
  · exact h0

theorem C10_witness :
    validate_semantic wTask10 [wRespond10] = some wOut10 ∧
      lookupDict wOut10.outputs wFrag10 = some false ∧ wOut10.r_outputs = 0 :=
  ⟨rfl,
   C10_comma_fragment_never_found wFrag10 "a".data "b".data (by decide) (by decide)
     wTask10 [wRespond10] wOut10 rfl (List.mem_cons_self _ _)⟩

/-- C5: replay is best-effort.  An action whose name is unknown to the tool
map, or which names a terminate tool, leaves the snapshot unchanged; when the
tool exists, `execute_action` returns the data state the tool's `invoke`
produced regardless of whether it raised (the exception is swallowed); and
the replay fold always continues with the remaining actions. -/
theorem C5_replay_best_effort (v : TaskValidator) (a : Action) (d : PyVal) :
    ((lookupDict v.tools_map a.name = none ∨ a.name ∈ v.terminate_tools) →
      execute_action v a d = d) ∧
    (∀ (t : ToolImpl) (raised : Bool) (d2 : PyVal),
      lookupDict v.tools_map a.name = some t → a.name ∉ v.terminate_tools →
      t.invoke d a.kwargs = (raised, d2) → execute_action v a d = d2) ∧
    (∀ rest : List Action,
      replay v (a :: rest) d = replay v rest (execute_action v a d)) := by
  refine ⟨?_, ?_, fun rest => rfl⟩
  · intro hcase
    rw [execute_action]
    rcases hcase with hnone | hterm
    · rw [if_neg]
      rintro ⟨hsome, -⟩
      rw [hnone] at hsome
      cases hsome
    · rw [if_neg]
      rintro ⟨-, hnt⟩
      exact hnt hterm
  · intro t raised d2 hsome hnt hinv
    rw [execute_action, if_pos ⟨by rw [hsome]; rfl, hnt⟩, hsome]
    show (t.invoke d a.kwargs).2 = d2
    rw [hinv]

theorem C5_witness :
    execute_action wValidator5 ⟨"missing".data, []⟩ (PyVal.int 0) = PyVal.int 0 ∧
    execute_action wValidator5 ⟨"done".data, []⟩ (PyVal.int 0) = PyVal.int 0 ∧
    execute_action wValidator5 ⟨"boom".data, []⟩ (PyVal.int 0) = PyVal.int 7 ∧
    replay wValidator5 [⟨"boom".data, []⟩] (PyVal.int 0) =
      replay wValidator5 [] (execute_action wValidator5 ⟨"boom".data, []⟩ (PyVal.int 0)) :=
  ⟨(C5_replay_best_effort wValidator5 ⟨"missing".data, []⟩ (PyVal.int 0)).1
     (Or.inl rfl),
   (C5_replay_best_effort wValidator5 ⟨"done".data, []⟩ (PyVal.int 0)).1
     (Or.inr (by decide)),
   (C5_replay_best_effort wValidator5 ⟨"boom".data, []⟩ (PyVal.int 0)).2.1
     wRaisingTool true (PyVal.int 7) rfl (by decide) rfl,
   (C5_replay_best_effort wValidator5 ⟨"boom".data, []⟩ (PyVal.int 0)).2.2 []⟩

/-- C6: the frame condition.  In the state-threaded embedding,
`validate_syntactic` and `validate_task` return the `current_data` snapshot
unchanged — the only snapshot the replay mutates is the fresh one obtained
from `data_load_func` — and the threaded variants compute exactly the plain
validators' results. -/
theorem C6_frame_condition (v : TaskValidator) (task : Task)
    (agent_actions : List Action) (current_data : PyVal) :
    (validate_syntactic_st v task current_data).2 = current_data ∧
    (validate_task_st v task agent_actions current_data).2 = current_data ∧
    (validate_syntactic_st v task current_data).1 =
      validate_syntactic v task current_data ∧
    (validate_task_st v task agent_actions current_data).1 =
      validate_task v task agent_actions current_data := by
  refine ⟨rfl, ?_, rfl, ?_⟩
  · rw [validate_task_st]
    cases hsem : validate_semantic task agent_actions <;>
      simp [hsem, validate_syntactic_st, get_data_hash_st]
  · rw [validate_task_st, validate_task]
    cases hsem : validate_semantic task agent_actions <;>
      simp [hsem, validate_syntactic_st, validate_syntactic, get_data_hash_st]

/-- C2: canonicalization is order-independent.  Snapshots that are
structurally equal up to dict-key order and set iteration order, arbitrarily
nested, produce identical `to_hashable` results and identical
`consistent_hash` digests, while list element order stays significant. -/
theorem C2_order_independent (a b : PyVal) (h : SEquiv a b) :
    to_hashable a = to_hashable b ∧
    consistent_hash (to_hashable a) = consistent_hash (to_hashable b) ∧
    to_hashable (.list [.int 0, .int 1]) ≠ to_hashable (.list [.int 1, .int 0]) := by
  have heq := to_hashable_sequiv h
  refine ⟨heq, by rw [heq], ?_⟩
  intro hcon
  simp [to_hashable, hashList] at hcon

theorem C2_witness :
    to_hashable wDictA = to_hashable wDictB ∧
      consistent_hash (to_hashable wDictA) = consistent_hash (to_hashable wDictB) :=
  ⟨(C2_order_independent wDictA wDictB
      (SEquiv.dictPerm (List.Perm.swap _ _ _) (by decide))).1,
   (C2_order_independent wDictA wDictB
      (SEquiv.dictPerm (List.Perm.swap _ _ _) (by decide))).2.1⟩

/-- C4 counterexample: on an opaque non-serializable object the code's
`to_hashable` does not raise — no `CanonicalizationError` exists anywhere in
the code — it returns the object unchanged through the `else` branch, and
`consistent_hash` still produces a 64-character digest of its `str()`. -/
theorem C4_counterexample :
    to_hashable (.obj 0) = .obj 0 ∧
      (consistent_hash (to_hashable (.obj 0))).length = 64 :=
  ⟨rfl, sha256Hex_length _⟩

/-- C4 amended: for every value that is not a mapping, list, or set —
including opaque non-serializable objects — `to_hashable` returns the value
unchanged (the `else` branch), and `consistent_hash` produces a hex digest
(always 64 characters) rather than raising; no `CanonicalizationError` is
ever raised because the type does not exist in the code. -/
theorem C4_scalars_pass_through :
    (∀ s, to_hashable (.str s) = .str s) ∧
    (∀ n, to_hashable (.int n) = .int n) ∧
    (∀ b, to_hashable (.bool b) = .bool b) ∧
    (∀ i, to_hashable (.obj i) = .obj i) ∧
    (∀ v : PyVal, (consistent_hash (to_hashable v)).length = 64) :=
  ⟨fun _ => rfl, fun _ => rfl, fun _ => rfl, fun _ => rfl,
   fun _ => sha256Hex_length _⟩

/-- C7: resolution fallback order.  A ref resolvable as a dotted symbolic
path resolves to the symbolic binding, independently of the file-location
strategy (stated by quantifying over a second environment that agrees on imports
only); and when file-location loading is used, the conventional
names are probed in the fixed orders `load_data, load, get_data` and
`TASKS, TASKS_TEST, TASKS_TRAIN, TASKS_DEV, tasks`, the first present name
winning. -/
theorem C7_resolution_fallback_order {α : Type _} (env env2 : PyModuleEnv α)
    (hsame : env2.importModule = env.importModule) :
    (∀ ref m f mod v, rsplitDot ref = some (m, f) →
      env.importModule m = some mod → lookupDict mod f = some v →
      load_data_function env ref = some v ∧ load_data_function env2 ref = some v) ∧
    (∀ ref mod, env.fileExists ref = true → env.execFile ref = some mod →
      loadDataSymbolic env ref = none →
      ((∀ v, lookupDict mod "load_data".data = some v →
        load_data_function env ref = some v) ∧
       (lookupDict mod "load_data".data = none →
        ∀ v, lookupDict mod "load".data = some v →
          load_data_function env ref = some v) ∧
       (lookupDict mod "load_data".data = none →
        lookupDict mod "load".data = none →
        ∀ v, lookupDict mod "get_data".data = some v →
          load_data_function env ref = some v))) ∧
    (∀ splits split task_file mod v, lookupDict splits split = some task_file →
      env.importModule task_file = some mod →
      getattrFirst mod TASK_VAR_NAMES = some v →
      load_tasks env splits split = some v ∧ load_tasks env2 splits split = some v) ∧
    (∀ splits split task_file mod, lookupDict splits split = some task_file →
      env.fileExists task_file = true → env.execFile task_file = some mod →
      loadTasksSymbolic env task_file = none →
      ((∀ v, lookupDict mod "TASKS".data = some v →
        load_tasks env splits split = some v) ∧
       (lookupDict mod "TASKS".data = none →
        ∀ v, lookupDict mod "TASKS_TEST".data = some v →
          load_tasks env splits split = some v) ∧
       (lookupDict mod "TASKS".data = none →
        lookupDict mod "TASKS_TEST".data = none →
        ∀ v, lookupDict mod "TASKS_TRAIN".data = some v →
          load_tasks env splits split = some v) ∧
       (lookupDict mod "TASKS".data = none →
        lookupDict mod "TASKS_TEST".data = none →
        lookupDict mod "TASKS_TRAIN".data = none →
        ∀ v, lookupDict mod "TASKS_DEV".data = some v →
          load_tasks env splits split = some v) ∧
       (lookupDict mod "TASKS".data = none →
        lookupDict mod "TASKS_TEST".data = none →
        lookupDict mod "TASKS_TRAIN".data = none →
        lookupDict mod "TASKS_DEV".data = none →
        ∀ v, lookupDict mod "tasks".data = some v →
          load_tasks env splits split = some v))) := by
  refine ⟨?_, ?_, ?_, ?_⟩
  · intro ref m f mod v hsplit himp hattr
    have hsym : loadDataSymbolic env ref = some v := by
      simp only [loadDataSymbolic, hsplit, himp, hattr]
    have hsym2 : loadDataSymbolic env2 ref = some v := by
      simp only [loadDataSymbolic, hsplit, hsame, himp, hattr]
    constructor
    · simp only [load_data_function, hsym]
    · simp only [load_data_function, hsym2]
  · intro ref mod hfe hexec hsym
    have hbody : load_data_function env ref =
        getattrFirst mod DATA_FUNC_NAMES := by
      simp [load_data_function, hsym, loadDataFile, hfe, hexec]
    refine ⟨?_, ?_, ?_⟩
    · intro v h1
      rw [hbody]
      simp [DATA_FUNC_NAMES, getattrFirst, h1]
    · intro h1 v h2
      rw [hbody]
      simp [DATA_FUNC_NAMES, getattrFirst, h1, h2]
    · intro h1 h2 v h3
      rw [hbody]
      simp [DATA_FUNC_NAMES, getattrFirst, h1, h2, h3]
  · intro splits split task_file mod v hsplit himp hattr
    have hsym : loadTasksSymbolic env task_file = some v := by
      simp only [loadTasksSymbolic, himp, hattr]
    have hsym2 : loadTasksSymbolic env2 task_file = some v := by
      simp only [loadTasksSymbolic, hsame, himp, hattr]
    constructor
    · simp only [load_tasks, hsplit, hsym]
    · simp only [load_tasks, hsplit, hsym2]
  · intro splits split task_file mod hsplit hfe hexec hsym
    have hbody : load_tasks env splits split =
        getattrFirst mod TASK_VAR_NAMES := by
      simp [load_tasks, hsplit, hsym, loadTasksFile, hfe, hexec]
    refine ⟨?_, ?_, ?_, ?_, ?_⟩
    · intro v h1
      rw [hbody]
      simp [TASK_VAR_NAMES, getattrFirst, h1]
    · intro h1 v h2
      rw [hbody]
      simp [TASK_VAR_NAMES, getattrFirst, h1, h2]
    · intro h1 h2 v h3
      rw [hbody]
      simp [TASK_VAR_NAMES, getattrFirst, h1, h2, h3]
    · intro h1 h2 h3 v h4
      rw [hbody]
      simp [TASK_VAR_NAMES, getattrFirst, h1, h2, h3, h4]
    · intro h1 h2 h3 h4 v h5
      rw [hbody]
      simp [TASK_VAR_NAMES, getattrFirst, h1, h2, h3, h4, h5]

theorem C7_witness :
    (load_data_function wEnv7 "pkg.data.load_fn".data = some 41 ∧
      load_data_function wEnv7NoFiles "pkg.data.load_fn".data = some 41) ∧
    load_data_function wEnv7 "ld.py".data = some 42 ∧
    load_tasks wEnv7 [("test".data, "tasklist".data)] "test".data = some 43 :=
  ⟨(C7_resolution_fallback_order wEnv7 wEnv7NoFiles rfl).1 "pkg.data.load_fn".data
     "pkg.data".data "load_fn".data [("load_fn".data, 41)] 41 (by decide) (by decide)
     (by decide),
   ((C7_resolution_fallback_order wEnv7 wEnv7NoFiles rfl).2.1 "ld.py".data
     [("load".data, 42)] (by decide) (by decide) (by decide)).2.1 (by decide) 42
     (by decide),
   ((C7_resolution_fallback_order wEnv7 wEnv7NoFiles rfl).2.2.1
     [("test".data, "tasklist".data)] "test".data "tasklist".data
     [("TASKS_TEST".data, 43), ("tasks".data, 44)] 43 (by decide) (by decide)
     (by decide)).1⟩

/-- C8 counterexample: registering two distinct tools that declare the same
invocation name raises nothing — no `DuplicateToolNameError` exists in the
code — and the map silently resolves the name to the later tool. -/
theorem C8_counterexample :
    build_tool_map [wToolA, wToolB] = [("dup".data, wToolB)] ∧ wToolA ≠ wToolB :=
  ⟨rfl, by decide⟩

/-- C8 amended: duplicate invocation names are silently resolved to the
last-registered implementation — tool-map construction is total, never
raises, and maps the shared name to the second tool. -/
theorem C8_last_tool_wins (t1 t2 : SemTool)
    (h : lowerStr t2.pyName = lowerStr t1.pyName) (h1 : t1.infoName = none)
    (h2 : t2.infoName = none) :
    build_tool_map [t1, t2] = [(lowerStr t1.pyName, t2)] := by
  rw [build_tool_map]
  simp only [List.foldl, h1, h2, h]
  rw [dictInsert, dictInsert, if_pos rfl]

theorem C8_witness : build_tool_map [wToolA, wToolB] = [(lowerStr wToolA.pyName, wToolB)] :=
  C8_last_tool_wins wToolA wToolB rfl rfl rfl

/-- C9: discovery is resilient to individual failures.  For a root holding
one well-formed and one malformed descriptor file (in either order),
`discover_domains` returns exactly the one parsed configuration and exactly
one warning naming the malformed file, instead of raising or aborting. -/
theorem C9_discovery_resilient (reg : Registry) (f1 f2 : DescriptorFile)
    (c : DomainConfig0) (h1 : f1.parsed = some c) (h2 : f2.parsed = none)
    (root : DiscoveryRoot) (hex : root.dirExists = true)
    (hfiles : rootFiles root = [f1, f2] ∨ rootFiles root = [f2, f1]) :
    (discover_domains reg root).configs = [c] ∧
      (discover_domains reg root).warnings = [warnMsg f2.path] := by
  rw [discover_domains, if_pos hex]
  rcases hfiles with hf | hf <;> rw [hf] <;>
    simp [List.foldl, discoverStep, load_domain_from_file, h1, h2]

theorem C9_witness :
    (discover_domains [] wRoot).configs = [⟨"x".data, 0⟩] ∧
      (discover_domains [] wRoot).warnings = [warnMsg wBadFile.path] :=
  C9_discovery_resilient [] wGoodFile wBadFile ⟨"x".data, 0⟩ rfl rfl wRoot rfl
    (Or.inl rfl)

end TauBench
